import Mathlib

/-!
# collections-go: the ordered set, the set and the type map

A shallow embedding of `orderedset/orderedset.go`, `set/set.go` and
`typemap/typemap.go`.

* A Go `map[K]V` is the list of its entries, in the order the keys were first
  stored; a map variable is an `Option` of it, `none` being the nil map.  An
  assignment `m[k] = v` replaces the entry whose key is `==` to `k` and adds
  an entry when there is none, so a key that is not equal to itself is added
  at every assignment and found by no lookup.
* A Go slice is its element list together with its capacity; the nil slice is
  the empty list with capacity `0`.
* A `*OrderedSet[T]` is an `Option (OrderedSet T)`: `none` is the nil pointer,
  `some st` a pointer to a struct whose current value is `st`.  A method with a
  pointer receiver takes the receiver and returns the receiver after the call.
* A run-time panic is the error of `Except Panic`.
* The operator `==` of a `comparable` type is its `BEq` instance, a total
  function: the element types are those whose `==` does not panic.  It need
  not be reflexive: a `float64` NaN is not equal to itself.  Two values that
  `==` identifies are taken to be one value (the class `Comparable`), so the
  two zeros of `float64` are one number.  A type with `DecidableEq` carries
  the `==` that decides `=`: a theorem stated over `[DecidableEq T]` is about
  the element types whose `==` is reflexive, a theorem stated over
  `[BEq T] [Comparable T]` about every element type.
* The zero value of `T` is `default`, and the lengths of slices are natural
  numbers.
-/

namespace Collections

/-- The run-time panics the modelled code can raise.  `invalidAddress` stands
for an address outside the modelled heap, which no Go program can hold, and
`typeAssertion` for a failed type assertion `x.(T)`. -/
inductive Panic where
  | nilDereference
  | nilMapAssign
  | indexOutOfRange
  | sliceBounds
  | invalidAddress
  | typeAssertion
  deriving DecidableEq, Repr

deriving instance DecidableEq for Except

/-! ## Comparable types -/

/-- The operator `==` of a Go `comparable` type: values that are `==` are the
same value.  The converse may fail, as for a `float64` NaN. -/
class Comparable (T : Type) [BEq T] : Prop where
  eq_of_beq : ∀ {a b : T}, (a == b) = true → a = b

/-- A model of `float64`: the NaN and the numbers, given here by integers. -/
inductive Float64 where
  | nan
  | num (n : Int)
  deriving Repr

/-- The operator `==` of `float64`: a NaN is equal to nothing, itself included. -/
def Float64.eq : Float64 → Float64 → Bool
  | .num a, .num b => a == b
  | _, _ => false

instance : BEq Float64 := ⟨Float64.eq⟩

/-- The zero value of `float64`. -/
instance : Inhabited Float64 := ⟨Float64.num 0⟩

instance : Comparable Float64 where
  eq_of_beq := by
    intro a b h
    cases a <;> cases b <;> simp_all [BEq.beq, Float64.eq]

/-- A type whose `==` decides `=` is comparable. -/
instance {T : Type} [BEq T] [LawfulBEq T] : Comparable T where
  eq_of_beq := fun h => eq_of_beq h

/-! ## Go maps -/

/-- The entries of a non-nil Go map. -/
abbrev GoMap (K V : Type) := List (K × V)

namespace GoMap

variable {K V : Type} [BEq K]

/-- The value stored under a key that is `==` to `k`, if there is one. -/
def lookup : GoMap K V → K → Option V
  | [], _ => none
  | (k', v) :: rest, k => if k' == k then some v else lookup rest k

/-- The map after `m[k] = v`: the entry whose key is `==` to `k` is replaced,
or a new one added after the others when no key is `==` to `k`. -/
def store : GoMap K V → K → V → GoMap K V
  | [], k, v => [(k, v)]
  | (k', v') :: rest, k, v =>
    if k' == k then (k, v) :: rest else (k', v') :: store rest k v

/-- The map after `delete(m, k)`: the entries whose key is `==` to `k` are removed. -/
def remove : GoMap K V → K → GoMap K V
  | [], _ => []
  | (k', v) :: rest, k => if k' == k then remove rest k else (k', v) :: remove rest k

end GoMap

section Builtins

variable {K V T : Type}

/-- The expression `m[k]`: the zero value when `m` is nil or has no entry for `k`. -/
def mapIndex [BEq K] [Inhabited V] (m : Option (GoMap K V)) (k : K) : V :=
  match m with
  | none => default
  | some entries => (entries.lookup k).getD default

/-- The statement `m[k] = v`, which panics on a nil map. -/
def mapAssign [BEq K] (m : Option (GoMap K V)) (k : K) (v : V) :
    Except Panic (Option (GoMap K V)) :=
  match m with
  | none => .error .nilMapAssign
  | some entries => .ok (some (entries.store k v))

/-- The statement `delete(m, k)`, a no-op on a nil map. -/
def mapDelete [BEq K] (m : Option (GoMap K V)) (k : K) : Option (GoMap K V) :=
  m.map (fun entries => entries.remove k)

/-- The statement `clear(m)` on a map: all entries are removed; nil stays nil. -/
def mapClear (m : Option (GoMap K V)) : Option (GoMap K V) :=
  m.map (fun _ => [])

/-- The function `maps.Clone`: a copy of the entries; nil stays nil. -/
def mapsClone (m : Option (GoMap K V)) : Option (GoMap K V) :=
  m.map (fun entries => entries)

/-- A Go slice value: the elements `s[0:len(s)]` and `cap(s)`. -/
structure Slice (T : Type) where
  elems : List T
  cap : Nat
  deriving DecidableEq, Repr

/-- The capacity the runtime gives a reallocated slice that had capacity
`oldCap` and must hold `needed` elements: the amortised doubling rule.  The
modelled code looks at a capacity only to compare it with `0`. -/
def growCap (oldCap needed : Nat) : Nat :=
  max needed (2 * oldCap)

/-- The expression `append(s, x)`: in place when the capacity allows it,
otherwise into a reallocated array. -/
def Slice.append (s : Slice T) (x : T) : Slice T :=
  if s.elems.length < s.cap then
    { elems := s.elems ++ [x], cap := s.cap }
  else
    { elems := s.elems ++ [x], cap := growCap s.cap (s.elems.length + 1) }

/-- The function `slices.Index`: the index of the first occurrence of `v`, or `-1`. -/
def slicesIndex [BEq T] (s : Slice T) (v : T) : Int :=
  if s.elems.contains v then (s.elems.indexOf v : Int) else -1

/-- The function `slices.Delete(s, i, j)`: it panics unless `0 ≤ i ≤ j ≤ len(s)`,
returns `s` itself when `i = j`, and otherwise removes `s[i:j]`. -/
def slicesDelete (s : Slice T) (i j : Int) : Except Panic (Slice T) :=
  if 0 ≤ i ∧ i ≤ j ∧ j ≤ (s.elems.length : Int) then
    if i = j then .ok s
    else .ok { elems := s.elems.take i.toNat ++ s.elems.drop j.toNat, cap := s.cap }
  else .error .sliceBounds

/-- The function `slices.Clone`: a copy in a fresh array. -/
def slicesClone (s : Slice T) : Slice T :=
  { elems := s.elems, cap := growCap 0 s.elems.length }

/-- The statement `clear(s)` on a slice: every element is set to the zero
value; length and capacity stay. -/
def sliceClear [Inhabited T] (s : Slice T) : Slice T :=
  { elems := List.replicate s.elems.length default, cap := s.cap }

end Builtins

/-! ## The ordered set -/

/-- The struct `OrderedSet[T]`: the membership map `set` and the sequence `items`. -/
structure OrderedSet (T : Type) where
  set : Option (GoMap T Bool)
  items : Slice T
  deriving DecidableEq, Repr

/-- The JSON functions of the element type: the bytes of the literal `[]`,
`json.Marshal` on a `[]T` and `json.Unmarshal` into a nil `[]T`. -/
structure JSON (B E T : Type) where
  emptyArray : B
  marshal : List T → Except E B
  unmarshal : B → Except E (Slice T)

namespace OrderedSet

variable {T : Type}

/-- The zero value of the struct: a declared, uninitialized set. -/
def zero : OrderedSet T :=
  { set := none, items := { elems := [], cap := 0 } }

/-- The function `New`. -/
def New (size : Int) : Option (OrderedSet T) :=
  some { set := some [], items := { elems := [], cap := (max 0 size).toNat } }

/-- The method `Insert`. -/
def Insert [BEq T] (s : Option (OrderedSet T)) (item : T) :
    Except Panic (Option (OrderedSet T) × Bool) :=
  match s with
  | none => .error .nilDereference
  | some st =>
    let modified := !(mapIndex st.set item)
    if modified then
      match mapAssign st.set item true with
      | .error p => .error p
      | .ok set1 => .ok (some { set := set1, items := st.items.append item }, modified)
    else .ok (some st, modified)

/-- The loop of `InsertMany` and `InsertSeq`, from the receiver `s`, the items
still to visit and the current value of `modified`. -/
def insertLoop [BEq T] :
    Option (OrderedSet T) → List T → Bool → Except Panic (Option (OrderedSet T) × Bool)
  | s, [], modified => .ok (s, modified)
  | s, item :: rest, modified =>
    match Insert s item with
    | .error p => .error p
    | .ok (s1, inserted) => insertLoop s1 rest (if inserted then true else modified)

/-- The method `InsertMany`. -/
def InsertMany [BEq T] (s : Option (OrderedSet T)) (items : List T) :
    Except Panic (Option (OrderedSet T) × Bool) :=
  insertLoop s items false

/-- The function `From`. -/
def From [BEq T] (items : List T) : Except Panic (Option (OrderedSet T)) :=
  match InsertMany (New (items.length : Int)) items with
  | .error p => .error p
  | .ok (s, _) => .ok s

/-- The method `Delete`. -/
def Delete [BEq T] (s : Option (OrderedSet T)) (item : T) :
    Except Panic (Option (OrderedSet T)) :=
  match s with
  | none => .ok none
  | some st =>
    let set1 := mapDelete st.set item
    let i := slicesIndex st.items item
    if i ≠ -1 then
      match slicesDelete st.items i i with
      | .error p => .error p
      | .ok items1 => .ok (some { set := set1, items := items1 })
    else .ok (some { set := set1, items := st.items })

/-- The method `Clear`. -/
def Clear [Inhabited T] (s : Option (OrderedSet T)) : Option (OrderedSet T) :=
  match s with
  | none => none
  | some st => some { set := mapClear st.set, items := sliceClear st.items }

/-- The method `Contains`. -/
def Contains [BEq T] (s : Option (OrderedSet T)) (item : T) : Bool :=
  match s with
  | none => false
  | some st => mapIndex st.set item

/-- The method `Size`. -/
def Size (s : Option (OrderedSet T)) : Nat :=
  match s with
  | none => 0
  | some st => st.items.elems.length

/-- The method `Empty`. -/
def Empty (s : Option (OrderedSet T)) : Bool :=
  match s with
  | none => true
  | some st => st.items.elems.length == 0

/-- The comparison loop of `Equal` over the indices still to visit. -/
def equalLoop [BEq T] (a b : List T) : List Nat → Except Panic Bool
  | [] => .ok true
  | i :: rest =>
    match a[i]?, b[i]? with
    | some x, some y => if x != y then .ok false else equalLoop a b rest
    | _, _ => .error .indexOutOfRange

/-- The method `Equal`. -/
def Equal [BEq T] (s other : Option (OrderedSet T)) : Except Panic Bool :=
  if Empty s && Empty other then .ok true
  else
    match s, other with
    | some a, some b =>
      if a.items.elems.length ≠ b.items.elems.length then .ok false
      else equalLoop a.items.elems b.items.elems (List.range a.items.elems.length)
    | _, _ => .error .nilDereference

/-- The method `Clone`. -/
def Clone (s : Option (OrderedSet T)) : Option (OrderedSet T) :=
  match s with
  | none => none
  | some st => some { set := mapsClone st.set, items := slicesClone st.items }

/-- The method `Items`: the elements of the returned slice. -/
def Items (s : Option (OrderedSet T)) : List T :=
  match s with
  | none => []
  | some st => (slicesClone st.items).elems

/-- The method `MarshalJSON`, whose receiver is a struct value. -/
def MarshalJSON {B E : Type} (json : JSON B E T) (s : OrderedSet T) : Except E B :=
  if Empty (some s) then .ok json.emptyArray
  else json.marshal s.items.elems

/-- The first loop of `UnmarshalJSON`: `s.set[item] = true` for every item. -/
def markAll [BEq T] :
    Option (GoMap T Bool) → List T → Except Panic (Option (GoMap T Bool))
  | m, [] => .ok m
  | m, item :: rest =>
    match mapAssign m item true with
    | .error p => .error p
    | .ok m1 => markAll m1 rest

/-- The method `UnmarshalJSON`: the receiver after the call and the returned error. -/
def UnmarshalJSON [BEq T] {B E : Type} (json : JSON B E T)
    (s : Option (OrderedSet T)) (data : B) :
    Except Panic (Option (OrderedSet T) × Option E) :=
  match json.unmarshal data with
  | .error err => .ok (s, some err)
  | .ok items =>
    match s with
    | none => .error .nilDereference
    | some st =>
      let set0 := if st.set.isNone then some [] else st.set
      if st.items.cap = 0 then
        match markAll set0 items.elems with
        | .error p => .error p
        | .ok set1 => .ok (some { set := set1, items := items }, none)
      else
        match InsertMany (some { set := set0, items := st.items }) items.elems with
        | .error p => .error p
        | .ok (s1, _) => .ok (s1, none)

/-- An initialized set: a non-nil pointer to a struct whose membership map has
been made, as `New`, `From` and `Collect` return it. -/
def Initialized (s : Option (OrderedSet T)) : Bool :=
  match s with
  | none => false
  | some st => st.set.isSome

/-- The sets built from `New` by `Insert` and `InsertMany` calls. -/
inductive InsertBuilt [BEq T] : Option (OrderedSet T) → Prop where
  | new (size : Int) : InsertBuilt (New size)
  | insert {s s1 : Option (OrderedSet T)} {modified : Bool} (item : T) :
      InsertBuilt s → Insert s item = .ok (s1, modified) → InsertBuilt s1
  | insertMany {s s1 : Option (OrderedSet T)} {modified : Bool} (items : List T) :
      InsertBuilt s → InsertMany s items = .ok (s1, modified) → InsertBuilt s1

end OrderedSet

/-- A JSON codec whose byte strings are the decoded arrays themselves; it is
used to run the code on concrete inputs. -/
def listJSON (T : Type) : JSON (List T) Unit T where
  emptyArray := []
  marshal := fun xs => .ok xs
  unmarshal := fun data => .ok { elems := data, cap := data.length }

/-- The element codec round-trips: a non-empty array is encoded, and decoding
its encoding, or the literal `[]`, gives the array back. -/
def JSON.RoundTrips {B E T : Type} (json : JSON B E T) : Prop :=
  (∀ xs : List T, xs ≠ [] →
    ∃ data cap, json.marshal xs = .ok data ∧ json.unmarshal data = .ok { elems := xs, cap := cap }) ∧
  ∃ cap, json.unmarshal json.emptyArray = .ok { elems := [], cap := cap }

/-- The set `From(3, 1)` of natural numbers, as a value. -/
def set31 : Option (OrderedSet Nat) :=
  some { set := some [(3, true), (1, true)], items := { elems := [3, 1], cap := 2 } }

/-- The set `From(3, 1, 2)` of natural numbers, as a value. -/
def set312 : Option (OrderedSet Nat) :=
  some { set := some [(3, true), (1, true), (2, true)], items := { elems := [3, 1, 2], cap := 3 } }

/-! ## The ordered set in memory

The embedding above passes the value of the struct along.  To speak about two
sets at once, and about what they share, the same methods are given here over a
heap: maps and backing arrays are objects with addresses, a slice is a header
that points to its array, and a `*OrderedSet[T]` is an optional address.
-/

namespace Mem

/-- A slice header: the address of the backing array (`none` for a nil slice),
the length and the capacity.  Every slice of the modelled code starts at the
first cell of its array. -/
structure SliceHeader where
  array : Option Nat
  len : Nat
  cap : Nat
  deriving DecidableEq, Repr

/-- The struct `OrderedSet[T]` as it lies in memory: the address of the
membership map (`none` for a nil map) and the header of `items`. -/
structure Object where
  set : Option Nat
  items : SliceHeader
  deriving DecidableEq, Repr

/-- The heap: the map objects, the backing arrays and the structs, each
addressed by its position.  An allocation adds an object at the end. -/
structure Heap (T : Type) where
  maps : List (GoMap T Bool)
  arrays : List (List T)
  objects : List Object
  deriving DecidableEq, Repr

variable {T : Type}

/-- The elements `s[0:len(s)]` of a slice. -/
def sliceElems (h : Heap T) (s : SliceHeader) : List T :=
  match s.array with
  | none => []
  | some r => (h.arrays.getD r []).take s.len

/-- The value of the map variable `m`. -/
def mapValue (h : Heap T) (m : Option Nat) : Option (GoMap T Bool) :=
  m.map (fun addr => h.maps.getD addr [])

/-- The value of the struct `p` points to, as the value-passing embedding sees
it; `none` for the nil pointer. -/
def view (h : Heap T) (p : Option Nat) : Option (OrderedSet T) :=
  match p with
  | none => none
  | some addr =>
    match h.objects[addr]? with
    | none => none
    | some obj =>
      some { set := mapValue h obj.set,
             items := { elems := sliceElems h obj.items, cap := obj.items.cap } }

/-- The slice header points into the heap: a nil slice has no capacity, and any
other slice has its cells inside its backing array. -/
def SliceHeader.Valid (h : Heap T) (s : SliceHeader) : Prop :=
  s.len ≤ s.cap ∧
  match s.array with
  | none => s.cap = 0
  | some r => ∃ arr, h.arrays[r]? = some arr ∧ s.cap ≤ arr.length

/-- The address `addr` holds an initialized set whose map and array are in the heap. -/
def Valid (h : Heap T) (addr : Nat) : Prop :=
  ∃ obj, h.objects[addr]? = some obj ∧
    (∃ m, obj.set = some m ∧ m < h.maps.length) ∧ obj.items.Valid h

/-- The statement `m[k] = true` on the map at `m`. -/
def mapAssign [BEq T] (h : Heap T) (m : Option Nat) (k : T) (v : Bool) :
    Except Panic (Heap T) :=
  match m with
  | none => .error .nilMapAssign
  | some addr =>
    match h.maps[addr]? with
    | none => .error .invalidAddress
    | some entries => .ok { h with maps := h.maps.set addr (entries.store k v) }

/-- The statement `delete(m, k)` on the map at `m`. -/
def mapDelete [BEq T] (h : Heap T) (m : Option Nat) (k : T) : Except Panic (Heap T) :=
  match m with
  | none => .ok h
  | some addr =>
    match h.maps[addr]? with
    | none => .error .invalidAddress
    | some entries => .ok { h with maps := h.maps.set addr (entries.remove k) }

/-- The function `maps.Clone`: a new map object with the same entries. -/
def mapsClone (h : Heap T) (m : Option Nat) : Heap T × Option Nat :=
  match m with
  | none => (h, none)
  | some addr =>
    ({ h with maps := h.maps ++ [h.maps.getD addr []] }, some h.maps.length)

/-- The expression `append(s, x)`: the cell after the last element is written
when the capacity allows it; otherwise the elements and `x` go to a new array. -/
def append [Inhabited T] (h : Heap T) (s : SliceHeader) (x : T) :
    Except Panic (Heap T × SliceHeader) :=
  if s.len < s.cap then
    match s.array with
    | none => .error .invalidAddress
    | some r =>
      match h.arrays[r]? with
      | none => .error .invalidAddress
      | some arr =>
        .ok ({ h with arrays := h.arrays.set r (arr.set s.len x) }, { s with len := s.len + 1 })
  else
    let newCap := growCap s.cap (s.len + 1)
    let cells := sliceElems h s ++ [x] ++ List.replicate (newCap - (s.len + 1)) default
    .ok ({ h with arrays := h.arrays ++ [cells] },
         { array := some h.arrays.length, len := s.len + 1, cap := newCap })

/-- The function `slices.Clone`, which is `append(s[:0:0], s...)`: an empty
slice gives `s[:0:0]` back, any other slice is copied into a new array. -/
def slicesClone [Inhabited T] (h : Heap T) (s : SliceHeader) : Heap T × SliceHeader :=
  if s.len = 0 then (h, { array := s.array, len := 0, cap := 0 })
  else
    let newCap := growCap 0 s.len
    let cells := sliceElems h s ++ List.replicate (newCap - s.len) default
    ({ h with arrays := h.arrays ++ [cells] },
     { array := some h.arrays.length, len := s.len, cap := newCap })

/-- The function `slices.Delete(s, i, j)`: after the bounds check, `s` itself
when `i = j`; otherwise `s[j:]` is moved down to `i` inside the array of `s`
and the cells it leaves are set to the zero value. -/
def slicesDelete [Inhabited T] (h : Heap T) (s : SliceHeader) (i j : Int) :
    Except Panic (Heap T × SliceHeader) :=
  if 0 ≤ i ∧ i ≤ j ∧ j ≤ (s.len : Int) then
    if i = j then .ok (h, s)
    else
      match s.array with
      | none => .error .invalidAddress
      | some r =>
        match h.arrays[r]? with
        | none => .error .invalidAddress
        | some arr =>
          let kept := (arr.take s.len).take i.toNat ++ (arr.take s.len).drop j.toNat
          let cells := kept ++ List.replicate (s.len - kept.length) default ++ arr.drop s.len
          .ok ({ h with arrays := h.arrays.set r cells }, { s with len := kept.length })
  else .error .sliceBounds

/-- The method `Clone`. -/
def Clone [Inhabited T] (h : Heap T) (p : Option Nat) : Except Panic (Heap T × Option Nat) :=
  match p with
  | none => .ok (h, none)
  | some addr =>
    match h.objects[addr]? with
    | none => .error .invalidAddress
    | some obj =>
      let (h1, set1) := mapsClone h obj.set
      let (h2, items1) := slicesClone h1 obj.items
      .ok ({ h2 with objects := h2.objects ++ [{ set := set1, items := items1 }] },
           some h2.objects.length)

/-- The method `Insert`. -/
def Insert [BEq T] [Inhabited T] (h : Heap T) (p : Option Nat) (item : T) :
    Except Panic (Heap T × Bool) :=
  match p with
  | none => .error .nilDereference
  | some addr =>
    match h.objects[addr]? with
    | none => .error .invalidAddress
    | some obj =>
      let modified := !(mapIndex (mapValue h obj.set) item)
      if modified then
        match mapAssign h obj.set item true with
        | .error e => .error e
        | .ok h1 =>
          match append h1 obj.items item with
          | .error e => .error e
          | .ok (h2, items1) =>
            .ok ({ h2 with objects := h2.objects.set addr { obj with items := items1 } },
                 modified)
      else .ok (h, modified)

/-- The method `Delete`. -/
def Delete [BEq T] [Inhabited T] (h : Heap T) (p : Option Nat) (item : T) :
    Except Panic (Heap T) :=
  match p with
  | none => .ok h
  | some addr =>
    match h.objects[addr]? with
    | none => .error .invalidAddress
    | some obj =>
      match mapDelete h obj.set item with
      | .error e => .error e
      | .ok h1 =>
        let i := slicesIndex { elems := sliceElems h1 obj.items, cap := obj.items.cap } item
        if i ≠ -1 then
          match slicesDelete h1 obj.items i i with
          | .error e => .error e
          | .ok (h2, items1) =>
            .ok { h2 with objects := h2.objects.set addr { obj with items := items1 } }
        else .ok h1

end Mem

/-- A heap that holds the set `From(3, 1, 2)` at address `0`, with one spare
cell in its backing array. -/
def heap312 : Mem.Heap Nat :=
  { maps := [[(3, true), (1, true), (2, true)]],
    arrays := [[3, 1, 2, 0]],
    objects := [{ set := some 0, items := { array := some 0, len := 3, cap := 4 } }] }

/-! ## Specification-level functions -/

/-- The list `xs` with every later duplicate removed: each value is kept once,
at the position of its first occurrence. -/
def firstOccurrences {T : Type} [BEq T] : List T → List T
  | [] => []
  | x :: xs => x :: (firstOccurrences xs).filter (fun y => y != x)

/-! ## The ordered set: sequences, reachable states and the invariant -/

namespace OrderedSet

variable {T : Type}

/-- The method `InsertSeq`; the finite single-pass sequence `seq` is given by
the list of the items it yields. -/
def InsertSeq [BEq T] (s : Option (OrderedSet T)) (seq : List T) :
    Except Panic (Option (OrderedSet T) × Bool) :=
  insertLoop s seq false

/-- The function `Collect`. -/
def Collect [BEq T] (seq : List T) : Except Panic (Option (OrderedSet T)) :=
  match InsertSeq (New 0) seq with
  | .error p => .error p
  | .ok (s, _) => .ok s

/-- The invariant of the struct: the sequence has no duplicates and holds
exactly the items the membership map reports. -/
def Consistent [BEq T] (st : OrderedSet T) : Prop :=
  st.items.elems.Nodup ∧ ∀ x, mapIndex st.set x = true ↔ x ∈ st.items.elems

/-- The states reached from `New`, `From` or `Collect` by `Insert`,
`InsertMany` and `InsertSeq` calls. -/
inductive InsertOnly [BEq T] : Option (OrderedSet T) → Prop where
  | new (size : Int) : InsertOnly (New size)
  | fromItems {s : Option (OrderedSet T)} (items : List T) : From items = .ok s → InsertOnly s
  | collect {s : Option (OrderedSet T)} (seq : List T) : Collect seq = .ok s → InsertOnly s
  | insert {s s1 : Option (OrderedSet T)} {modified : Bool} (item : T) :
      InsertOnly s → Insert s item = .ok (s1, modified) → InsertOnly s1
  | insertMany {s s1 : Option (OrderedSet T)} {modified : Bool} (items : List T) :
      InsertOnly s → InsertMany s items = .ok (s1, modified) → InsertOnly s1
  | insertSeq {s s1 : Option (OrderedSet T)} {modified : Bool} (seq : List T) :
      InsertOnly s → InsertSeq s seq = .ok (s1, modified) → InsertOnly s1

/-- Applying `Insert` to each item in argument order, the results dropped. -/
def insertEach [BEq T] :
    Option (OrderedSet T) → List T → Except Panic (Option (OrderedSet T))
  | s, [] => .ok s
  | s, item :: rest =>
    match Insert s item with
    | .error p => .error p
    | .ok (s1, _) => insertEach s1 rest

end OrderedSet

/-! ## More map built-ins -/

section MoreBuiltins

variable {K V : Type}

/-- The keys of a non-nil map, in the order a `range` loop visits them.  Go
leaves that order open; the modelled code does not depend on it. -/
def GoMap.keys (m : GoMap K V) : List K :=
  m.map Prod.fst

/-- The expression `len(m)` on a map. -/
def mapLen (m : Option (GoMap K V)) : Nat :=
  match m with
  | none => 0
  | some entries => entries.length

/-- The keys a `for k := range m` loop visits; none on a nil map. -/
def mapKeys (m : Option (GoMap K V)) : List K :=
  match m with
  | none => []
  | some entries => entries.keys

/-- The expression `v, ok := m[k]`: `none` when `ok` is false. -/
def mapFind [BEq K] (m : Option (GoMap K V)) (k : K) : Option V :=
  match m with
  | none => none
  | some entries => entries.lookup k

end MoreBuiltins

/-! ## The set

A shallow embedding of `set/set.go`.  A `Set[T]` is a struct that holds a map;
a method with a value receiver works on the map the struct refers to, so a
method that writes returns the struct with the map after the call.
-/

/-- The struct `Set[T]`. -/
structure Set (T : Type) where
  set : Option (GoMap T Bool)
  deriving DecidableEq, Repr

namespace Set

variable {T : Type}

/-- The function `New`; the size is only a capacity hint. -/
def New (_size : Int) : Set T :=
  { set := some [] }

/-- The method `Insert`. -/
def Insert [BEq T] (s : Set T) (item : T) : Except Panic (Set T) :=
  match mapAssign s.set item true with
  | .error p => .error p
  | .ok set1 => .ok { set := set1 }

/-- The loop of `InsertMany` and `InsertSeq` over the items still to visit. -/
def insertLoop [BEq T] : Set T → List T → Except Panic (Set T)
  | s, [] => .ok s
  | s, item :: rest =>
    match Insert s item with
    | .error p => .error p
    | .ok s1 => insertLoop s1 rest

/-- The method `InsertMany`. -/
def InsertMany [BEq T] (s : Set T) (items : List T) : Except Panic (Set T) :=
  insertLoop s items

/-- The method `InsertSeq`; the sequence is given by the list of the items it yields. -/
def InsertSeq [BEq T] (s : Set T) (seq : List T) : Except Panic (Set T) :=
  insertLoop s seq

/-- The function `From`. -/
def From [BEq T] (items : List T) : Except Panic (Set T) :=
  InsertMany (New (items.length : Int)) items

/-- The function `Collect`. -/
def Collect [BEq T] (seq : List T) : Except Panic (Set T) :=
  InsertSeq (New 0) seq

/-- The method `Delete`. -/
def Delete [BEq T] (s : Set T) (item : T) : Set T :=
  { set := mapDelete s.set item }

/-- The method `Clear`. -/
def Clear (s : Set T) : Set T :=
  { set := mapClear s.set }

/-- The method `Contains`. -/
def Contains [BEq T] (s : Set T) (item : T) : Bool :=
  mapIndex s.set item

/-- The method `Size`. -/
def Size (s : Set T) : Nat :=
  mapLen s.set

/-- The method `Empty`. -/
def Empty (s : Set T) : Bool :=
  mapLen s.set == 0

/-- The loop of `Equal` over the keys of the receiver still to visit. -/
def equalLoop [BEq T] (other : Set T) : List T → Bool
  | [] => true
  | item :: rest => if !(mapIndex other.set item) then false else equalLoop other rest

/-- The method `Equal`. -/
def Equal [BEq T] (s other : Set T) : Bool :=
  if mapLen s.set ≠ mapLen other.set then false
  else equalLoop other (mapKeys s.set)

/-- The method `Clone`. -/
def Clone (s : Set T) : Set T :=
  { set := mapsClone s.set }

/-- The method `Items`: the keys, appended in the order the loop visits them. -/
def Items (s : Set T) : List T :=
  mapKeys s.set

/-- The method `MarshalJSON`. -/
def MarshalJSON {B E : Type} (json : JSON B E T) (s : Set T) : Except E B :=
  json.marshal (Items s)

/-- The method `UnmarshalJSON`, whose receiver is a pointer: the receiver
after the call and the returned error. -/
def UnmarshalJSON [BEq T] {B E : Type} (json : JSON B E T)
    (s : Option (Set T)) (data : B) : Except Panic (Option (Set T) × Option E) :=
  match json.unmarshal data with
  | .error err => .ok (s, some err)
  | .ok items =>
    match s with
    | none => .error .nilDereference
    | some st =>
      let set0 := if st.set.isNone then some [] else st.set
      match InsertMany { set := set0 } items.elems with
      | .error p => .error p
      | .ok s1 => .ok (some s1, none)

/-- The states reached from `New`, `From` or `Collect` by `Insert`,
`InsertMany`, `InsertSeq`, `Delete`, `Clear` and `UnmarshalJSON` calls. -/
inductive Reachable [BEq T] : Set T → Prop where
  | new (size : Int) : Reachable (New size)
  | fromItems {s : Set T} (items : List T) : From items = .ok s → Reachable s
  | collect {s : Set T} (seq : List T) : Collect seq = .ok s → Reachable s
  | insert {s s1 : Set T} (item : T) : Reachable s → Insert s item = .ok s1 → Reachable s1
  | insertMany {s s1 : Set T} (items : List T) :
      Reachable s → InsertMany s items = .ok s1 → Reachable s1
  | insertSeq {s s1 : Set T} (seq : List T) :
      Reachable s → InsertSeq s seq = .ok s1 → Reachable s1
  | delete {s : Set T} (item : T) : Reachable s → Reachable (Delete s item)
  | clear {s : Set T} : Reachable s → Reachable (Clear s)
  | unmarshalJSON {B E : Type} {s s1 : Set T} {err : Option E} (json : JSON B E T) (data : B) :
      Reachable s → UnmarshalJSON json (some s) data = .ok (some s1, err) → Reachable s1

end Set

/-- A JSON codec whose byte strings are either a decoded array or `none`, which
stands for an input that does not parse. -/
def optionJSON (T : Type) : JSON (Option (List T)) Unit T where
  emptyArray := some []
  marshal := fun xs => .ok (some xs)
  unmarshal := fun data =>
    match data with
    | none => .error ()
    | some xs => .ok { elems := xs, cap := xs.length }

/-- No two items of the list are `==`. -/
def Distinct {T : Type} [BEq T] (l : List T) : Prop :=
  l.Pairwise (fun a b => (a == b) = false)

/-- Every item of the list is equal to itself: the list holds no NaN. -/
def SelfEqual {T : Type} [BEq T] (l : List T) : Prop :=
  ∀ x ∈ l, (x == x) = true

/-- The representation invariant of a set: the map has been made, no two of
its keys are `==`, and every stored value is `true`. -/
def Set.Invariant {T : Type} [BEq T] (s : Set T) : Prop :=
  ∃ m, s.set = some m ∧ Distinct m.keys ∧ ∀ e ∈ m, e.2 = true

/-- The set `From(1, 2, 3)` of natural numbers, as a value. -/
def plain123 : Set Nat :=
  { set := some [(1, true), (2, true), (3, true)] }

/-- The set `From(3, 2, 1)` of natural numbers, as a value. -/
def plain321 : Set Nat :=
  { set := some [(3, true), (2, true), (1, true)] }

/-! ## The type map

A shallow embedding of `typemap/typemap.go`.  The types of the program are the
values of a type `Ty` of type descriptors, with the interface types marked and
the relation "the type `D` implements the interface `I`" given.  A value of the
interface type `any` is nil or a dynamic type, which is never an interface
type, together with a value of that type.  A value of a static type `T` is
given by the `any` value it converts to, which is what `Insert` stores.
-/

namespace TypeMap

/-- The types of a program: which descriptors are interface types, which types
implement which interface, and the zero value of each type that is not an
interface. -/
structure Types (Ty Val : Type) where
  isInterface : Ty → Bool
  implements : Ty → Ty → Bool
  zero : Ty → Val

/-- A value of the interface type `any`: `none` is nil. -/
abbrev Any (Ty Val : Type) := Option (Ty × Val)

/-- The struct `Map`; a key of the map is a `reflect.Type`, `none` being the
nil `reflect.Type` that `reflect.TypeOf(nil)` returns. -/
structure Map (Ty Val : Type) where
  m : Option (GoMap (Option Ty) (Any Ty Val))
  deriving DecidableEq, Repr

variable {Ty Val : Type}

/-- The `any` value `item` is the conversion of a value of the static type `T`:
nil only for an interface type; otherwise its dynamic type is `T` itself, or a
type that implements `T` when `T` is an interface type. -/
def Types.HasType [DecidableEq Ty] (G : Types Ty Val) (T : Ty) (item : Any Ty Val) : Bool :=
  match item with
  | none => G.isInterface T
  | some (D, _) =>
    !G.isInterface D && (if G.isInterface T then G.implements D T else decide (D = T))

/-- The type assertion `item.(T)` in its one-result form: it panics on a nil
`item` and on a dynamic type that is not `T`, or does not implement `T` when
`T` is an interface type. -/
def Types.typeAssert [DecidableEq Ty] (G : Types Ty Val) (T : Ty) (item : Any Ty Val) :
    Except Panic (Any Ty Val) :=
  match item with
  | none => .error .typeAssertion
  | some (D, v) =>
    if (if G.isInterface T then G.implements D T else decide (D = T)) then .ok (some (D, v))
    else .error .typeAssertion

/-- The expression `*new(T)`: the zero value of `T`. -/
def Types.zeroValue (G : Types Ty Val) (T : Ty) : Any Ty Val :=
  if G.isInterface T then none else some (T, G.zero T)

/-- The function `New`. -/
def New : Map Ty Val :=
  { m := some [] }

/-- The function `Get[T]`. -/
def Get [DecidableEq Ty] (G : Types Ty Val) (T : Ty) (m : Map Ty Val) :
    Except Panic (Any Ty Val) :=
  match mapFind m.m (some T) with
  | none => .ok (G.zeroValue T)
  | some item => G.typeAssert T item

/-- The function `Lookup[T]`. -/
def Lookup [DecidableEq Ty] (G : Types Ty Val) (T : Ty) (m : Map Ty Val) :
    Except Panic (Any Ty Val × Bool) :=
  match mapFind m.m (some T) with
  | none => .ok (G.zeroValue T, false)
  | some item =>
    match G.typeAssert T item with
    | .error p => .error p
    | .ok v => .ok (v, true)

/-- The function `Insert[T]`; `item` is the argument converted to `any`. -/
def Insert [DecidableEq Ty] (T : Ty) (m : Map Ty Val) (item : Any Ty Val) :
    Except Panic (Map Ty Val) :=
  match mapAssign m.m (some T) item with
  | .error p => .error p
  | .ok m1 => .ok { m := m1 }

/-- The function `InsertAny`: the key is `reflect.TypeOf(item)`, the dynamic
type of `item`. -/
def InsertAny [DecidableEq Ty] (m : Map Ty Val) (item : Any Ty Val) :
    Except Panic (Map Ty Val) :=
  match mapAssign m.m (item.map Prod.fst) item with
  | .error p => .error p
  | .ok m1 => .ok { m := m1 }

/-- The function `Delete[T]`. -/
def Delete [DecidableEq Ty] (T : Ty) (m : Map Ty Val) : Map Ty Val :=
  { m := mapDelete m.m (some T) }

/-- The function `Clear`. -/
def Clear (m : Map Ty Val) : Map Ty Val :=
  { m := mapClear m.m }

/-- The function `Contains[T]`. -/
def Contains [DecidableEq Ty] (T : Ty) (m : Map Ty Val) : Bool :=
  (mapFind m.m (some T)).isSome

/-- The states reached from `New` by `Insert[T]`, `InsertAny`, `Delete[T]` and
`Clear` calls, with arguments of the static types the calls name. -/
inductive Reachable [DecidableEq Ty] (G : Types Ty Val) : Map Ty Val → Prop where
  | new : Reachable G New
  | insert {m m1 : Map Ty Val} (T : Ty) (item : Any Ty Val) :
      Reachable G m → G.HasType T item = true → Insert T m item = .ok m1 → Reachable G m1
  | insertAny {m m1 : Map Ty Val} (item : Any Ty Val) :
      Reachable G m → (∀ D v, item = some (D, v) → G.isInterface D = false) →
      InsertAny m item = .ok m1 → Reachable G m1
  | delete {m : Map Ty Val} (T : Ty) : Reachable G m → Reachable G (Delete T m)
  | clear {m : Map Ty Val} : Reachable G m → Reachable G (Clear m)

/-- Some types of a program: three basic types, the interface type `error` and
a struct type `errorString` that implements it. -/
inductive GoType where
  | int
  | string
  | float64
  | error
  | errorString
  deriving DecidableEq, Repr

/-- The values of the types of `GoType`; a `float64` is given by its bits. -/
inductive GoValue where
  | int (n : Int)
  | string (s : String)
  | float64 (bits : Nat)
  deriving DecidableEq, Repr

/-- The types of `GoType`. -/
def goTypes : Types GoType GoValue where
  isInterface := fun T => decide (T = GoType.error)
  implements := fun D I => decide (D = GoType.errorString) && decide (I = GoType.error)
  zero := fun T =>
    match T with
    | .int => .int 0
    | .string => .string ""
    | .float64 => .float64 0
    | .error => .int 0
    | .errorString => .string ""

end TypeMap

/-- The invariant of the struct in terms of `==`: the sequence holds no two
items that are `==`, and the membership map reports exactly the items of the
sequence that are equal to themselves. -/
def OrderedSet.Tracks {T : Type} [BEq T] (st : OrderedSet T) : Prop :=
  Distinct st.items.elems ∧
    ∀ x, mapIndex st.set x = true ↔ x ∈ st.items.elems ∧ (x == x) = true

/-- The ordered set of `float64` after `New(0)` and two `Insert(NaN)`, as a value. -/
def nanTwice : Option (OrderedSet Float64) :=
  some { set := some [(Float64.nan, true), (Float64.nan, true)],
         items := { elems := [Float64.nan, Float64.nan], cap := 2 } }

/-- A heap that holds the set `From(NaN)` of `float64` at address `0`. -/
def heapNan : Mem.Heap Float64 :=
  { maps := [[(Float64.nan, true)]],
    arrays := [[Float64.nan]],
    objects := [{ set := some 0, items := { array := some 0, len := 1, cap := 1 } }] }

/-- The set `From(NaN)` of `float64`, as a value. -/
def plainNan : Set Float64 :=
  { set := some [(Float64.nan, true)] }

end Collections

/-! # Theorems -/

namespace Collections

open OrderedSet

/-! ## Go maps -/

section MapLemmas
variable {K V : Type} [DecidableEq K]

theorem GoMap.lookup_store (m : GoMap K V) (k k' : K) (v : V) :
    (m.store k v).lookup k' = if k = k' then some v else m.lookup k' := by
  induction m with
  | nil =>
    by_cases h : k = k' <;> simp [GoMap.store, GoMap.lookup, h]
  | cons e rest ih =>
    obtain ⟨k0, v0⟩ := e
    by_cases h0 : k0 = k
    · subst h0
      by_cases h : k0 = k' <;> simp [GoMap.store, GoMap.lookup, h]
    · by_cases h : k = k'
      · subst h
        simp [GoMap.store, GoMap.lookup, h0, ih]
      · by_cases h1 : k0 = k'
        · subst h1
          simp [GoMap.store, GoMap.lookup, h0, h]
        · simp [GoMap.store, GoMap.lookup, h0, h1, ih, h]

theorem GoMap.lookup_remove (m : GoMap K V) (k k' : K) :
    (m.remove k).lookup k' = if k = k' then none else m.lookup k' := by
  induction m with
  | nil => simp [GoMap.remove, GoMap.lookup]
  | cons e rest ih =>
    obtain ⟨k0, v0⟩ := e
    by_cases h0 : k0 = k
    · subst h0
      by_cases h : k0 = k'
      · subst h
        simpa [GoMap.remove, GoMap.lookup] using ih
      · simp [GoMap.remove, GoMap.lookup, h, ih]
    · by_cases h : k = k'
      · subst h
        simp [GoMap.remove, GoMap.lookup, h0, ih]
      · by_cases h1 : k0 = k'
        · subst h1
          simp [GoMap.remove, GoMap.lookup, h0, h]
        · simp [GoMap.remove, GoMap.lookup, h0, h1, ih, h]

theorem mapIndex_store [Inhabited V] (m : GoMap K V) (k k' : K) (v : V) :
    mapIndex (some (m.store k v)) k' = if k = k' then v else mapIndex (some m) k' := by
  unfold mapIndex
  simp only [GoMap.lookup_store]
  split <;> simp

theorem mapIndex_mapDelete [Inhabited V] (m : Option (GoMap K V)) (k k' : K) :
    mapIndex (mapDelete m k) k' = if k = k' then default else mapIndex m k' := by
  cases m with
  | none => simp [mapDelete, mapIndex]
  | some entries =>
    simp only [mapDelete, mapIndex, Option.map_some', GoMap.lookup_remove]
    split <;> simp

end MapLemmas

/-! ## Comparable types -/

section ComparableLemmas
variable {T : Type} [BEq T] [Comparable T]

theorem Comparable.beq_self_left {a b : T} (h : (a == b) = true) : (a == a) = true := by
  have e : a = b := Comparable.eq_of_beq h
  rw [← e] at h
  exact h

theorem Comparable.beq_symm {a b : T} (h : (a == b) = true) : (b == a) = true := by
  have e : a = b := Comparable.eq_of_beq h
  rw [← e] at h ⊢
  exact h

theorem Comparable.beq_comm (a b : T) : (a == b) = (b == a) := by
  cases h1 : a == b with
  | true => exact (Comparable.beq_symm h1).symm
  | false =>
    cases h2 : b == a with
    | true => rw [Comparable.beq_symm h2] at h1; cases h1
    | false => rfl

theorem Comparable.beq_iff (a b : T) : (a == b) = true ↔ a = b ∧ (a == a) = true := by
  constructor
  · intro h
    exact ⟨Comparable.eq_of_beq h, Comparable.beq_self_left h⟩
  · rintro ⟨rfl, h⟩
    exact h

theorem Comparable.beq_false_of_ne {a b : T} (h : a ≠ b) : (a == b) = false := by
  cases h1 : a == b with
  | true => exact absurd (Comparable.eq_of_beq h1) h
  | false => rfl

theorem Float64.nan_beq (x : Float64) : (Float64.nan == x) = false := rfl

theorem Float64.beq_nan (x : Float64) : (x == Float64.nan) = false := by
  cases x <;> rfl

end ComparableLemmas

/-! ## Go maps, with the `==` of the key type -/

section MapBeqLemmas
variable {K V : Type} [BEq K] [Comparable K]

theorem GoMap.lookup_store_beq (m : GoMap K V) (k q : K) (v : V) :
    (m.store k v).lookup q = if k == q then some v else m.lookup q := by
  induction m with
  | nil => simp [GoMap.store, GoMap.lookup]
  | cons e rest ih =>
    obtain ⟨k0, v0⟩ := e
    cases h0 : k0 == k with
    | true =>
      have e0 : k0 = k := Comparable.eq_of_beq h0
      subst e0
      simp only [GoMap.store, GoMap.lookup, h0, if_true]
      split <;> rfl
    | false =>
      simp only [GoMap.store, GoMap.lookup, h0, Bool.false_eq_true, if_false, ih]
      cases hq : k == q with
      | true =>
        have e1 : k = q := Comparable.eq_of_beq hq
        subst e1
        simp [h0]
      | false => simp

theorem GoMap.lookup_remove_beq (m : GoMap K V) (k q : K) :
    (m.remove k).lookup q = if k == q then none else m.lookup q := by
  induction m with
  | nil => simp [GoMap.remove, GoMap.lookup]
  | cons e rest ih =>
    obtain ⟨k0, v0⟩ := e
    cases h0 : k0 == k with
    | true =>
      have e0 : k0 = k := Comparable.eq_of_beq h0
      subst e0
      simp only [GoMap.remove, GoMap.lookup, h0, if_true, ih]
      split <;> rfl
    | false =>
      simp only [GoMap.remove, GoMap.lookup, h0, Bool.false_eq_true, if_false, ih]
      cases hq : k == q with
      | true =>
        have e1 : k = q := Comparable.eq_of_beq hq
        subst e1
        simp [h0]
      | false => simp

theorem mapIndex_store_beq [Inhabited V] (m : GoMap K V) (k q : K) (v : V) :
    mapIndex (some (m.store k v)) q = if k == q then v else mapIndex (some m) q := by
  unfold mapIndex
  simp only [GoMap.lookup_store_beq]
  split <;> simp

theorem mapIndex_mapDelete_beq [Inhabited V] (m : Option (GoMap K V)) (k q : K) :
    mapIndex (mapDelete m k) q = if k == q then default else mapIndex m q := by
  cases m with
  | none => simp [mapDelete, mapIndex]
  | some entries =>
    simp only [mapDelete, mapIndex, Option.map_some', GoMap.lookup_remove_beq]
    split <;> simp

theorem mapFind_store {V1 : Type} (m : GoMap K V1) (k k1 : K) (v : V1) :
    mapFind (some (m.store k v)) k1 = if k == k1 then some v else mapFind (some m) k1 := by
  simp only [mapFind, GoMap.lookup_store_beq]

theorem GoMap.lookup_mem (m : GoMap K V) (k : K) (v : V) (h : m.lookup k = some v) :
    (k, v) ∈ m := by
  induction m with
  | nil => simp [GoMap.lookup] at h
  | cons e rest ih =>
    obtain ⟨k0, v0⟩ := e
    cases h0 : k0 == k with
    | true =>
      have e0 : k0 = k := Comparable.eq_of_beq h0
      subst e0
      simp only [GoMap.lookup, h0, if_true, Option.some.injEq] at h
      subst h
      exact List.mem_cons_self _ _
    | false =>
      simp only [GoMap.lookup, h0, Bool.false_eq_true, if_false] at h
      exact List.mem_cons_of_mem _ (ih h)

/-- A key is found iff it is one of the keys and is equal to itself. -/
theorem GoMap.lookup_isSome (m : GoMap K V) (k : K) :
    (m.lookup k).isSome = true ↔ k ∈ m.keys ∧ (k == k) = true := by
  induction m with
  | nil => simp [GoMap.lookup, GoMap.keys]
  | cons e rest ih =>
    obtain ⟨k0, v0⟩ := e
    simp only [GoMap.keys, List.map_cons, List.mem_cons] at ih ⊢
    cases h0 : k0 == k with
    | true =>
      have e0 : k0 = k := Comparable.eq_of_beq h0
      subst e0
      simp [GoMap.lookup, h0]
    | false =>
      simp only [GoMap.lookup, h0, Bool.false_eq_true, if_false, ih]
      constructor
      · rintro ⟨h1, h2⟩
        exact ⟨Or.inr h1, h2⟩
      · rintro ⟨h1 | h1, h2⟩
        · subst h1
          rw [h2] at h0
          cases h0
        · exact ⟨h1, h2⟩

end MapBeqLemmas

section MapEntryLemmas
variable {K V : Type} [BEq K]

theorem GoMap.mem_store (m : GoMap K V) (k : K) (v : V) (e : K × V) (h : e ∈ m.store k v) :
    e = (k, v) ∨ e ∈ m := by
  induction m with
  | nil =>
    simp only [GoMap.store, List.mem_singleton] at h
    exact Or.inl h
  | cons e0 rest ih =>
    obtain ⟨k0, v0⟩ := e0
    cases h0 : k0 == k with
    | true =>
      simp only [GoMap.store, h0, if_true, List.mem_cons] at h
      rcases h with h | h
      · exact Or.inl h
      · exact Or.inr (List.mem_cons_of_mem _ h)
    | false =>
      simp only [GoMap.store, h0, Bool.false_eq_true, if_false, List.mem_cons] at h
      rcases h with h | h
      · exact Or.inr (h ▸ List.mem_cons_self _ _)
      · rcases ih h with h1 | h1
        · exact Or.inl h1
        · exact Or.inr (List.mem_cons_of_mem _ h1)

theorem GoMap.remove_sublist (m : GoMap K V) (k : K) : List.Sublist (m.remove k) m := by
  induction m with
  | nil => exact List.Sublist.slnil
  | cons e rest ih =>
    obtain ⟨k0, v0⟩ := e
    cases h0 : k0 == k with
    | true =>
      simp only [GoMap.remove, h0, if_true]
      exact List.Sublist.cons _ ih
    | false =>
      simp only [GoMap.remove, h0, Bool.false_eq_true, if_false]
      exact List.Sublist.cons₂ _ ih

end MapEntryLemmas

/-! ## First occurrences -/

section FirstOccurrences
variable {T : Type} [DecidableEq T]

theorem firstOccurrences_filter (p : T → Bool) (l : List T) :
    firstOccurrences (l.filter p) = (firstOccurrences l).filter p := by
  induction l with
  | nil => simp [firstOccurrences]
  | cons x l ih =>
    by_cases hp : p x = true
    · simp [List.filter_cons, hp, firstOccurrences, ih, List.filter_filter, Bool.and_comm]
    · simp only [List.filter_cons, hp, firstOccurrences, ih, List.filter_filter]
      simp only [Bool.false_eq_true, if_false]
      rw [ih]
      apply List.filter_congr
      intro y _
      by_cases hy : y = x
      · subst hy; simp [hp]
      · simp [hy]

theorem mem_firstOccurrences (l : List T) (x : T) : x ∈ firstOccurrences l ↔ x ∈ l := by
  induction l with
  | nil => simp [firstOccurrences]
  | cons y l ih =>
    simp only [firstOccurrences, List.mem_cons, List.mem_filter, ih]
    by_cases h : x = y <;> simp [h]

theorem nodup_firstOccurrences (l : List T) : (firstOccurrences l).Nodup := by
  induction l with
  | nil => simp [firstOccurrences]
  | cons y l ih =>
    simp only [firstOccurrences, List.nodup_cons, List.mem_filter]
    exact ⟨by simp, ih.filter _⟩

theorem firstOccurrences_of_nodup (l : List T) (h : l.Nodup) : firstOccurrences l = l := by
  induction l with
  | nil => simp [firstOccurrences]
  | cons y l ih =>
    rw [List.nodup_cons] at h
    simp only [firstOccurrences, ih h.2]
    congr 1
    rw [List.filter_eq_self]
    intro a ha
    have : a ≠ y := fun e => h.1 (e ▸ ha)
    simp [this]

theorem eraseDups_loop_eq (xs : List T) : ∀ seen : List T,
    List.eraseDups.loop xs seen
      = seen.reverse ++ (firstOccurrences xs).filter (fun y => !decide (y ∈ seen)) := by
  induction xs with
  | nil => intro seen; simp [List.eraseDups.loop, firstOccurrences]
  | cons x xs ih =>
    intro seen
    by_cases hx : x ∈ seen
    · have he : List.elem x seen = true := by simpa using hx
      rw [List.eraseDups.loop, he]
      simp only [firstOccurrences, List.filter_cons, hx, decide_True, Bool.not_true,
        Bool.false_eq_true, if_false, List.filter_filter]
      rw [ih seen]
      congr 1
      apply List.filter_congr
      intro y _
      by_cases hy : y = x
      · subst hy; simp [hx]
      · simp [hy]
    · have he : List.elem x seen = false := by simpa using hx
      rw [List.eraseDups.loop, he]
      simp only [firstOccurrences, List.filter_cons, hx, decide_False, Bool.not_false,
        if_true, List.filter_filter]
      rw [ih (x :: seen)]
      simp only [List.reverse_cons, List.append_assoc, List.singleton_append]
      congr 2
      apply List.filter_congr
      intro y _
      by_cases hy : y = x
      · subst hy; simp
      · simp [hy]

/-- The list of first occurrences is what the library function `List.eraseDups` computes. -/
theorem firstOccurrences_eq_eraseDups (xs : List T) : firstOccurrences xs = xs.eraseDups := by
  rw [List.eraseDups, eraseDups_loop_eq]
  simp

end FirstOccurrences

/-! ## First occurrences, with the `==` of the item type -/

section FirstOccurrencesBeq
variable {T : Type} [BEq T] [Comparable T]

theorem firstOccurrences_filter_beq (p : T → Bool) (l : List T) :
    firstOccurrences (l.filter p) = (firstOccurrences l).filter p := by
  induction l with
  | nil => simp [firstOccurrences]
  | cons x l ih =>
    cases hp : p x with
    | true =>
      simp only [List.filter_cons, hp, if_true, firstOccurrences, ih, List.filter_filter]
      congr 1
      apply List.filter_congr
      intro y _
      exact Bool.and_comm _ _
    | false =>
      simp only [List.filter_cons, hp, Bool.false_eq_true, if_false, firstOccurrences, ih,
        List.filter_filter]
      apply List.filter_congr
      intro y _
      cases hy : p y with
      | false => simp
      | true =>
        have hne : (y == x) = false := by
          cases hyx : y == x with
          | false => rfl
          | true =>
            have e : y = x := Comparable.eq_of_beq hyx
            rw [e, hp] at hy
            cases hy
        simp [bne, hne]

theorem mem_firstOccurrences_beq (l : List T) (x : T) : x ∈ firstOccurrences l ↔ x ∈ l := by
  induction l with
  | nil => simp [firstOccurrences]
  | cons y l ih =>
    simp only [firstOccurrences, List.mem_cons, List.mem_filter, ih]
    constructor
    · rintro (h | ⟨h, -⟩)
      · exact Or.inl h
      · exact Or.inr h
    · rintro (h | h)
      · exact Or.inl h
      · cases hxy : x == y with
        | true => exact Or.inl (Comparable.eq_of_beq hxy)
        | false => exact Or.inr ⟨h, by simp [bne, hxy]⟩

theorem distinct_firstOccurrences (l : List T) : Distinct (firstOccurrences l) := by
  induction l with
  | nil => exact List.Pairwise.nil
  | cons y l ih =>
    simp only [firstOccurrences, Distinct, List.pairwise_cons, List.mem_filter]
    refine ⟨?_, List.Pairwise.filter _ ih⟩
    rintro a ⟨-, ha⟩
    rw [Comparable.beq_comm]
    simpa [bne] using ha

theorem firstOccurrences_of_distinct (l : List T) (h : Distinct l) : firstOccurrences l = l := by
  induction l with
  | nil => rfl
  | cons y l ih =>
    rw [Distinct, List.pairwise_cons] at h
    simp only [firstOccurrences, ih h.2]
    congr 1
    rw [List.filter_eq_self]
    intro a ha
    have := h.1 a ha
    rw [Comparable.beq_comm] at this
    simp [bne, this]

/-- A list without a NaN has no two `==` items iff it has no duplicates. -/
theorem distinct_iff_nodup (l : List T) (hs : SelfEqual l) : Distinct l ↔ l.Nodup := by
  unfold Distinct List.Nodup
  constructor
  · intro h
    refine h.imp_of_mem ?_
    intro a b ha _ hab e
    subst e
    rw [hs a ha] at hab
    cases hab
  · intro h
    exact h.imp (fun hab => Comparable.beq_false_of_ne hab)

end FirstOccurrencesBeq

/-! ## Insert, InsertMany, From -/

section InsertLemmas
variable {T : Type}

theorem Slice.append_elems (s : Slice T) (x : T) : (s.append x).elems = s.elems ++ [x] := by
  unfold Slice.append
  split <;> rfl

theorem Items_some (st : OrderedSet T) : Items (some st) = st.items.elems := rfl

theorem Initialized_iff (s : Option (OrderedSet T)) :
    Initialized s = true ↔ ∃ st m, s = some st ∧ st.set = some m := by
  cases s with
  | none => simp [Initialized]
  | some st =>
    cases h : st.set with
    | none => simp [Initialized, h]
    | some m => simp [Initialized, h]

end InsertLemmas

section InsertBeq
variable {T : Type} [BEq T]

theorem Contains_some (st : OrderedSet T) (x : T) : Contains (some st) x = mapIndex st.set x := rfl

theorem Insert_present (st : OrderedSet T) (x : T) (h : mapIndex st.set x = true) :
    OrderedSet.Insert (some st) x = .ok (some st, false) := by
  simp [OrderedSet.Insert, h]

theorem Insert_absent (st : OrderedSet T) (m : GoMap T Bool) (x : T) (hm : st.set = some m)
    (h : mapIndex st.set x = false) :
    OrderedSet.Insert (some st) x =
      .ok (some { set := some (m.store x true), items := st.items.append x }, true) := by
  rw [hm] at h
  simp [OrderedSet.Insert, h, hm, mapAssign]

variable [Comparable T]

/-- The loop of `InsertMany` on an initialized set: it succeeds, reports
whether an item was not in the map, appends the first occurrences of the items
that were not in the map, and leaves in the map what was there or is `==` to
an item. -/
theorem insertLoop_run (xs : List T) :
    ∀ (st : OrderedSet T) (m : GoMap T Bool) (b : Bool), st.set = some m →
      ∃ st1 : OrderedSet T,
        insertLoop (some st) xs b
            = .ok (some st1, b || xs.any (fun x => !mapIndex st.set x)) ∧
        st1.items.elems
            = st.items.elems ++ firstOccurrences (xs.filter (fun x => !mapIndex st.set x)) ∧
        (∃ m1, st1.set = some m1) ∧
        ∀ y, mapIndex st1.set y = (mapIndex st.set y || xs.any (fun x => x == y)) := by
  induction xs with
  | nil =>
    intro st m b hm
    exact ⟨st, by simp [insertLoop], by simp [firstOccurrences], ⟨m, hm⟩, by simp⟩
  | cons x xs ih =>
    intro st m b hm
    cases hx : mapIndex st.set x with
    | true =>
      obtain ⟨st1, h1, h2, h3, h4⟩ := ih st m b hm
      refine ⟨st1, ?_, ?_, h3, ?_⟩
      · simp [insertLoop, Insert_present st x hx, h1, hx]
      · simp [h2, hx]
      · intro y
        rw [h4 y]
        cases hy : x == y with
        | false => simp [hy]
        | true =>
          have e : x = y := Comparable.eq_of_beq hy
          subst e
          simp [hx]
    | false =>
      obtain ⟨st1, h1, h2, h3, h4⟩ :=
        ih { set := some (m.store x true), items := st.items.append x } (m.store x true) true rfl
      have hidx : ∀ y, mapIndex (some (m.store x true)) y
          = ((x == y) || mapIndex st.set y) := by
        intro y
        rw [mapIndex_store_beq, hm]
        cases hy : x == y <;> simp
      refine ⟨st1, ?_, ?_, h3, ?_⟩
      · simp only [insertLoop, Insert_absent st m x hm hx, if_true, h1, List.any_cons, hx]
        simp
      · rw [h2, Slice.append_elems]
        simp only [hidx, List.filter_cons, hx, Bool.not_false, if_true, firstOccurrences,
          List.append_assoc, List.singleton_append]
        rw [← firstOccurrences_filter_beq, List.filter_filter]
        congr 3
        apply List.filter_congr
        intro y _
        rw [Comparable.beq_comm x y]
        cases hy : y == x <;> simp [bne, hy]
      · intro y
        rw [h4 y, hidx y]
        cases hy : x == y <;> simp [hy]

end InsertBeq

section InvariantBeq
variable {T : Type} [BEq T] [Comparable T]

theorem any_beq_iff (xs : List T) (y : T) :
    (xs.any fun x => x == y) = true ↔ y ∈ xs ∧ (y == y) = true := by
  rw [List.any_eq_true]
  constructor
  · rintro ⟨x, hx, hxy⟩
    have e : x = y := Comparable.eq_of_beq hxy
    subst e
    exact ⟨hx, hxy⟩
  · rintro ⟨h1, h2⟩
    exact ⟨y, h1, h2⟩

/-- The loop of `InsertMany` keeps the invariant `Tracks`. -/
theorem insertLoop_tracks (xs : List T) (st : OrderedSet T) (m : GoMap T Bool) (b : Bool)
    (hm : st.set = some m) (ht : st.Tracks) :
    ∃ st1 b1, insertLoop (some st) xs b = .ok (some st1, b1) ∧ st1.Tracks ∧
      (∃ m1, st1.set = some m1) ∧
      st1.items.elems
        = st.items.elems ++ firstOccurrences (xs.filter (fun x => !mapIndex st.set x)) := by
  obtain ⟨hd, hmem⟩ := ht
  obtain ⟨st1, h1, h2, h3, h4⟩ := insertLoop_run xs st m b hm
  refine ⟨st1, _, h1, ⟨?_, ?_⟩, h3, h2⟩
  · rw [h2]
    refine List.pairwise_append.2 ⟨hd, distinct_firstOccurrences _, ?_⟩
    intro y hy z hz
    rw [mem_firstOccurrences_beq, List.mem_filter] at hz
    cases hyz : y == z with
    | false => rfl
    | true =>
      have e : y = z := Comparable.eq_of_beq hyz
      subst e
      have := (hmem y).2 ⟨hy, hyz⟩
      simp [this] at hz
  · intro x
    rw [h4 x, h2, List.mem_append, mem_firstOccurrences_beq, List.mem_filter, Bool.or_eq_true,
      any_beq_iff, hmem x]
    constructor
    · rintro (⟨h5, h6⟩ | ⟨h5, h6⟩)
      · exact ⟨Or.inl h5, h6⟩
      · cases hx : mapIndex st.set x with
        | true => exact ⟨Or.inl ((hmem x).1 hx).1, h6⟩
        | false => exact ⟨Or.inr ⟨h5, by simp [hx]⟩, h6⟩
    · rintro ⟨h5 | ⟨h5, -⟩, h6⟩
      · exact Or.inl ⟨h5, h6⟩
      · exact Or.inr ⟨h5, h6⟩

/-- Sets built from `New` by inserts are initialized and satisfy `Tracks`. -/
theorem insertBuilt_tracks {s : Option (OrderedSet T)} (h : InsertBuilt s) :
    ∃ st m, s = some st ∧ st.set = some m ∧ st.Tracks := by
  induction h with
  | new size =>
    exact ⟨_, [], rfl, rfl, List.Pairwise.nil, fun x => by simp [mapIndex, GoMap.lookup]⟩
  | @insert s s1 modified item _ hins ih =>
    obtain ⟨st, m, rfl, hm, ht⟩ := ih
    obtain ⟨st1, b1, h1, ht1, ⟨m1, hm1⟩, -⟩ := insertLoop_tracks [item] st m false hm ht
    have hrun : insertLoop (some st) [item] false = .ok (s1, if modified then true else false) := by
      simp only [insertLoop, hins]
    rw [h1] at hrun
    simp only [Except.ok.injEq, Prod.mk.injEq] at hrun
    exact ⟨st1, m1, hrun.1.symm, hm1, ht1⟩
  | @insertMany s s1 modified items _ hins ih =>
    obtain ⟨st, m, rfl, hm, ht⟩ := ih
    obtain ⟨st1, b1, h1, ht1, ⟨m1, hm1⟩, -⟩ := insertLoop_tracks items st m false hm ht
    rw [InsertMany, h1] at hins
    simp only [Except.ok.injEq, Prod.mk.injEq] at hins
    exact ⟨st1, m1, hins.1.symm, hm1, ht1⟩

/-- Inserting a list into a freshly made set, in terms of `==`. -/
theorem InsertMany_New_beq (size : Int) (xs : List T) :
    ∃ st : OrderedSet T,
      InsertMany (New size) xs = .ok (some st, xs.any (fun _ => true)) ∧
      st.items.elems = firstOccurrences xs ∧
      (∃ m, st.set = some m) ∧ ∀ y, mapIndex st.set y = xs.any (fun x => x == y) := by
  obtain ⟨st, h1, h2, h3, h4⟩ :=
    insertLoop_run xs
      { set := some [], items := { elems := [], cap := (max 0 size).toNat } } [] false rfl
  have he : ∀ y : T, mapIndex (some ([] : GoMap T Bool)) y = false := fun _ => rfl
  refine ⟨st, ?_, ?_, h3, ?_⟩
  · simpa [InsertMany, New, he] using h1
  · simpa [he] using h2
  · intro y
    simpa [he] using h4 y

end InvariantBeq

section InsertLoop
variable {T : Type} [DecidableEq T]

theorem insertLoop_initialized (xs : List T) :
    ∀ (st : OrderedSet T) (m : GoMap T Bool) (b : Bool), st.set = some m →
      ∃ st1 : OrderedSet T,
        insertLoop (some st) xs b
            = .ok (some st1, b || xs.any (fun x => !mapIndex st.set x)) ∧
        st1.items.elems
            = st.items.elems ++ firstOccurrences (xs.filter (fun x => !mapIndex st.set x)) ∧
        (∃ m1, st1.set = some m1) ∧
        ∀ y, mapIndex st1.set y = (mapIndex st.set y || decide (y ∈ xs)) := by
  induction xs with
  | nil =>
    intro st m b hm
    exact ⟨st, by simp [insertLoop], by simp [firstOccurrences], ⟨m, hm⟩, by simp⟩
  | cons x xs ih =>
    intro st m b hm
    cases hx : mapIndex st.set x with
    | true =>
      obtain ⟨st1, h1, h2, h3, h4⟩ := ih st m b hm
      refine ⟨st1, ?_, ?_, h3, ?_⟩
      · simp [insertLoop, Insert_present st x hx, h1, hx]
      · simp [h2, hx]
      · intro y
        rw [h4 y]
        by_cases hy : y = x
        · subst hy; simp [hx]
        · simp [hy]
    | false =>
      obtain ⟨st1, h1, h2, h3, h4⟩ :=
        ih { set := some (m.store x true), items := st.items.append x } (m.store x true) true rfl
      have hidx : ∀ y, mapIndex (some (m.store x true)) y
          = (decide (y = x) || mapIndex st.set y) := by
        intro y
        rw [mapIndex_store, hm]
        by_cases hy : x = y
        · subst hy; simp
        · have : ¬ y = x := fun e => hy e.symm
          simp [hy, this]
      refine ⟨st1, ?_, ?_, h3, ?_⟩
      · simp only [insertLoop, Insert_absent st m x hm hx, if_true, h1, List.any_cons, hx]
        simp
      · rw [h2, Slice.append_elems]
        simp only [hidx, List.filter_cons, hx, Bool.not_false, if_true, firstOccurrences,
          List.append_assoc, List.singleton_append]
        rw [← firstOccurrences_filter, List.filter_filter]
        congr 3
        apply List.filter_congr
        intro y _
        by_cases hy : y = x <;> simp [hy]
      · intro y
        rw [h4 y, hidx y]
        by_cases hy : y = x <;> simp [hy, Bool.or_comm]

theorem mapIndex_empty (y : T) : mapIndex (some ([] : GoMap T Bool)) y = false := rfl

end InsertLoop

section FromItems
variable {T : Type} [DecidableEq T]

/-- Inserting a list into a freshly made set: the run succeeds and leaves the
first occurrences of the list. -/
theorem InsertMany_New (size : Int) (xs : List T) :
    ∃ st : OrderedSet T,
      InsertMany (New size) xs = .ok (some st, xs.any (fun _ => true)) ∧
      st.items.elems = firstOccurrences xs ∧
      (∃ m, st.set = some m) ∧ ∀ y, mapIndex st.set y = decide (y ∈ xs) := by
  obtain ⟨st, h1, h2, h3, h4⟩ :=
    insertLoop_initialized xs
      { set := some [], items := { elems := [], cap := (max 0 size).toNat } } [] false rfl
  refine ⟨st, ?_, ?_, h3, ?_⟩
  · simpa [InsertMany, New, mapIndex_empty] using h1
  · simpa [mapIndex_empty] using h2
  · intro y
    simpa [mapIndex_empty] using h4 y

/-- The scenario of C1: inserting `[3,1,2,1]` gives `Items() = [3,1,2]` and `Size() = 3`. -/
theorem scenario_insert_3121 :
    (From [3, 1, 2, 1]).map (fun s => (Items s, Size s)) = .ok ([3, 1, 2], 3) := by
  decide

end FromItems

/-! ## Delete and Clear -/

section DeleteClear
variable {T : Type} [BEq T]

/-- The result of `slices.Index` is `-1` or an index into the slice. -/
theorem slicesIndex_bounds (s : Slice T) (v : T) :
    slicesIndex s v = -1 ∨
      (0 ≤ slicesIndex s v ∧ slicesIndex s v ≤ (s.elems.length : Int)) := by
  unfold slicesIndex
  by_cases hv : s.elems.contains v = true
  · have hle : List.indexOf v s.elems ≤ s.elems.length := by
      unfold List.indexOf
      exact List.findIdx_le_length _
    rw [if_pos hv]
    exact Or.inr ⟨Int.ofNat_nonneg _, by exact_mod_cast hle⟩
  · rw [if_neg hv]
    exact Or.inl rfl

theorem slicesDelete_same (s : Slice T) (v : T) (h : slicesIndex s v ≠ -1) :
    slicesDelete s (slicesIndex s v) (slicesIndex s v) = .ok s := by
  rcases slicesIndex_bounds s v with h1 | ⟨h0, h1⟩
  · exact absurd h1 h
  · unfold slicesDelete
    rw [if_pos ⟨h0, le_refl _, h1⟩, if_pos rfl]

/-- The effect of `Delete` on a non-nil receiver: the key leaves the map and the
sequence stays as it is, since `slices.Delete(s.items, i, i)` removes the empty
range `s.items[i:i]`. -/
theorem Delete_some (st : OrderedSet T) (x : T) :
    Delete (some st) x = .ok (some { set := mapDelete st.set x, items := st.items }) := by
  unfold Delete
  by_cases h : slicesIndex st.items x ≠ -1
  · simp only [h, if_true, slicesDelete_same st.items x h]
    simp
  · simp [h]

theorem Delete_nil (x : T) : Delete (none : Option (OrderedSet T)) x = .ok none := rfl

/-- C2 (the code at the failing input): `Delete(1)` on the set with
`Items() = [3,1,2]` leaves `Items() = [3,1,2]` and `Size() = 3`; only
`Contains(1)` becomes false. -/
theorem C2_delete_keeps_sequence_at_312 :
    ((From [3, 1, 2]).bind (fun s => Delete s 1)).map
        (fun s => (Items s, Size s, Contains s 1))
      = .ok ([3, 1, 2], 3, false) := by
  decide

/-- C3 (the code at the failing input): after `New(0)`, `Insert(1)`, `Delete(1)`
the sequence still holds `1`, which the membership index no longer reports;
`Size()` is `1` although no item is contained. -/
theorem C3_index_and_sequence_diverge_after_delete :
    (((Insert (New 0) 1).bind (fun r => Delete r.1 1)).map
        (fun s => (Items s, Size s, Contains s 1)))
      = .ok ([1], 1, false) := by
  decide

/-- C4 (the code at the failing input): `Clear()` on the set with
`Items() = [3,1,2]` leaves three zero values in the sequence, so `Size()` is `3`
and `Empty()` is false. -/
theorem C4_clear_keeps_length_at_312 :
    (From [3, 1, 2]).map (fun s => (Items (Clear s), Size (Clear s), Empty (Clear s)))
      = .ok ([0, 0, 0], 3, false) := by
  decide

end DeleteClear

/-! ## The contract of Insert -/

section InsertContract
variable {T : Type} [BEq T] [Comparable T]

/-- C5 (the claim fails): `Insert(NaN)` on a new set of `float64` returns true
and `Contains(NaN)` is false afterwards. -/
theorem C5_insert_nan_not_contained :
    (OrderedSet.Insert (New 0) Float64.nan).map (fun r => (r.2, Contains r.1 Float64.nan))
      = .ok (true, false) := by
  decide

/-- C5 (amended): on an initialized set, `Insert(x)` succeeds and returns true
iff `Contains(x)` was false; when it returns true, `Items()` is the previous
`Items()` with `x` appended, `Contains(x)` is true if `x == x` and false if
not, and every other membership answer is unchanged; when it returns false,
the set is unchanged. -/
theorem C5_insert_contract (s : Option (OrderedSet T)) (x : T) (hs : Initialized s = true) :
    ∃ s1 modified, OrderedSet.Insert s x = .ok (s1, modified) ∧
      (modified = true ↔ Contains s x = false) ∧
      (modified = true →
        Items s1 = Items s ++ [x] ∧ Contains s1 x = (x == x) ∧
        ∀ y, y ≠ x → Contains s1 y = Contains s y) ∧
      (modified = false → s1 = s) := by
  obtain ⟨st, m, rfl, hm⟩ := (Initialized_iff s).1 hs
  cases hx : mapIndex st.set x with
  | true =>
    refine ⟨some st, false, Insert_present st x hx, ?_, ?_, ?_⟩
    · simp [Contains_some, hx]
    · simp
    · simp
  | false =>
    refine ⟨_, true, Insert_absent st m x hm hx, ?_, ?_, ?_⟩
    · simp [Contains_some, hx]
    · intro _
      refine ⟨?_, ?_, ?_⟩
      · simp [Items_some, Slice.append_elems]
      · rw [Contains_some, mapIndex_store_beq, ← hm, hx]
        cases x == x <;> rfl
      · intro y hy
        have hxy : (x == y) = false := Comparable.beq_false_of_ne (fun e => hy e.symm)
        rw [Contains_some, Contains_some, mapIndex_store_beq, hxy, hm]
        rfl
    · simp

/-- C5 at a concrete input: inserting a NaN into a new set of `float64`. -/
theorem C5_insert_contract_witness :
    Initialized (New 0 : Option (OrderedSet Float64)) = true ∧
    ∃ s1 modified, OrderedSet.Insert (New 0) Float64.nan = .ok (s1, modified) ∧
      (modified = true ↔ Contains (New 0) Float64.nan = false) ∧
      (modified = true →
        Items s1 = Items (New 0) ++ [Float64.nan] ∧
        Contains s1 Float64.nan = (Float64.nan == Float64.nan) ∧
        ∀ y, y ≠ Float64.nan → Contains s1 y = Contains (New 0) y) ∧
      (modified = false → s1 = New 0) :=
  ⟨rfl, C5_insert_contract (New 0) Float64.nan rfl⟩

end InsertContract

/-! ## Equal -/

section EqualLemmas
variable {T : Type}

theorem list_eq_iff_positions (xs ys : List T) :
    xs = ys ↔ xs.length = ys.length ∧ ∀ i, i < xs.length → xs[i]? = ys[i]? := by
  constructor
  · rintro rfl
    exact ⟨rfl, fun _ _ => rfl⟩
  · rintro ⟨hl, h⟩
    apply List.ext_getElem?
    intro i
    by_cases hi : i < xs.length
    · exact h i hi
    · rw [List.getElem?_eq_none (by omega), List.getElem?_eq_none (by omega)]

variable [DecidableEq T]

theorem equalLoop_all (a b : List T) (idx : List Nat)
    (h : ∀ i ∈ idx, i < a.length ∧ i < b.length) :
    equalLoop a b idx = .ok (decide (∀ i ∈ idx, a[i]? = b[i]?)) := by
  induction idx with
  | nil => simp [equalLoop]
  | cons i rest ih =>
    have hi := h i (List.mem_cons_self i rest)
    have hrest : ∀ j ∈ rest, j < a.length ∧ j < b.length :=
      fun j hj => h j (List.mem_cons_of_mem i hj)
    simp only [equalLoop, List.getElem?_eq_getElem hi.1, List.getElem?_eq_getElem hi.2, ih hrest]
    by_cases hxy : a[i] = b[i]
    · simp [hxy, List.getElem?_eq_getElem hi.1, List.getElem?_eq_getElem hi.2]
    · simp [hxy, List.getElem?_eq_getElem hi.1, List.getElem?_eq_getElem hi.2]

/-- On non-nil receivers `Equal` never panics and decides whether the two
sequences are the same list. -/
theorem Equal_some (a b : OrderedSet T) :
    Equal (some a) (some b) = .ok (decide (a.items.elems = b.items.elems)) := by
  unfold Equal
  by_cases he : (OrderedSet.Empty (some a) && OrderedSet.Empty (some b)) = true
  · simp only [he, if_true]
    simp only [OrderedSet.Empty, Bool.and_eq_true, beq_iff_eq, List.length_eq_zero] at he
    simp [he.1, he.2]
  · simp only [he, Bool.false_eq_true, if_false]
    by_cases hl : a.items.elems.length = b.items.elems.length
    · simp only [hl, ne_eq, not_true_eq_false, if_false]
      rw [equalLoop_all]
      · congr 1
        apply decide_eq_decide.2
        constructor
        · intro h
          apply List.ext_getElem? 
          intro i
          by_cases hi : i < b.items.elems.length
          · exact h i (List.mem_range.2 hi)
          · rw [List.getElem?_eq_none (by omega), List.getElem?_eq_none (by omega)]
        · intro h i _
          rw [h]
      · intro i hi
        have := List.mem_range.1 hi
        omega
    · have hne : a.items.elems ≠ b.items.elems := fun e => hl (by rw [e])
      simp [hl, hne]

end EqualLemmas

section EqualBeq
variable {T : Type} [BEq T]

theorem equalLoop_all_beq (a b : List T) (idx : List Nat)
    (h : ∀ i ∈ idx, i < a.length ∧ i < b.length) :
    equalLoop a b idx = .ok (idx.all fun i => a[i]? == b[i]?) := by
  induction idx with
  | nil => simp [equalLoop]
  | cons i rest ih =>
    have hi := h i (List.mem_cons_self i rest)
    have hrest : ∀ j ∈ rest, j < a.length ∧ j < b.length :=
      fun j hj => h j (List.mem_cons_of_mem i hj)
    simp only [equalLoop, List.getElem?_eq_getElem hi.1, List.getElem?_eq_getElem hi.2, ih hrest,
      List.all_cons, Option.some_beq_some]
    cases hxy : a[i] == b[i] <;> simp [bne, hxy]

/-- On non-nil receivers `Equal` never panics; it is true iff the sequences
have the same length and items that are `==` at every position. -/
theorem Equal_some_iff (a b : OrderedSet T) :
    ∃ r, Equal (some a) (some b) = .ok r ∧
      (r = true ↔ a.items.elems.length = b.items.elems.length ∧
        ∀ i, i < a.items.elems.length →
          (a.items.elems[i]? == b.items.elems[i]?) = true) := by
  unfold Equal
  by_cases he : (OrderedSet.Empty (some a) && OrderedSet.Empty (some b)) = true
  · simp only [he, if_true]
    simp only [OrderedSet.Empty, Bool.and_eq_true, beq_iff_eq, List.length_eq_zero] at he
    exact ⟨true, rfl, by simp [he.1, he.2]⟩
  · simp only [he, Bool.false_eq_true, if_false]
    by_cases hl : a.items.elems.length = b.items.elems.length
    · simp only [hl, ne_eq, not_true_eq_false, if_false]
      rw [equalLoop_all_beq _ _ _ (by
        intro i hi
        have := List.mem_range.1 hi
        omega)]
      refine ⟨_, rfl, ?_⟩
      rw [List.all_eq_true]
      constructor
      · intro h
        exact ⟨trivial, fun i hi => h i (List.mem_range.2 (by omega))⟩
      · rintro ⟨-, h⟩ i hi
        have := List.mem_range.1 hi
        exact h i (by omega)
    · exact ⟨false, by simp [hl], by simp [hl]⟩

/-- Against a set with the same sequence `Equal` is true iff every item of the
sequence is equal to itself. -/
theorem Equal_same_items (a b : OrderedSet T) (h : b.items.elems = a.items.elems) :
    ∃ r, Equal (some a) (some b) = .ok r ∧ (r = true ↔ SelfEqual a.items.elems) := by
  obtain ⟨r, h1, h2⟩ := Equal_some_iff a b
  refine ⟨r, h1, ?_⟩
  rw [h2, h]
  constructor
  · rintro ⟨-, hi⟩ x hx
    obtain ⟨i, hlt, rfl⟩ := List.mem_iff_getElem.1 hx
    have := hi i hlt
    rwa [List.getElem?_eq_getElem hlt, Option.some_beq_some] at this
  · intro hs
    refine ⟨rfl, fun i hlt => ?_⟩
    rw [List.getElem?_eq_getElem hlt, Option.some_beq_some]
    exact hs _ (List.getElem_mem hlt)

variable [Comparable T]

theorem option_beq_comm (x y : Option T) : (x == y) = (y == x) := by
  cases x <;> cases y <;> simp [Comparable.beq_comm]

/-- C6 (the claim fails): a set of `float64` that holds a NaN is not `Equal`
to itself. -/
theorem C6_equal_not_reflexive_at_nan :
    ((From [Float64.nan]).bind fun s => Equal s s) = .ok false := by
  decide

/-- C6 (amended): for initialized sets `a` and `b`, `a.Equal(b)` succeeds and is
true iff `a.Items()` and `b.Items()` have the same length and items that are
`==` at every position; `Equal` is symmetric; `a.Equal(a)` is true iff every
item of `a` is equal to itself; and `Equal` is order-sensitive:
`From(1,2,3).Equal(From(3,2,1))` is false. -/
theorem C6_equal_is_positionwise (a b : Option (OrderedSet T))
    (ha : Initialized a = true) (hb : Initialized b = true) :
    (∃ r, Equal a b = .ok r ∧
      (r = true ↔ (Items a).length = (Items b).length ∧
        ∀ i, i < (Items a).length → ((Items a)[i]? == (Items b)[i]?) = true)) ∧
    (∃ r, Equal a a = .ok r ∧ (r = true ↔ SelfEqual (Items a))) ∧
    Equal b a = Equal a b ∧
    ((From [1, 2, 3]).bind fun s => (From [3, 2, 1]).bind fun t => Equal s t) = .ok false := by
  obtain ⟨sa, -, rfl, -⟩ := (Initialized_iff a).1 ha
  obtain ⟨sb, -, rfl, -⟩ := (Initialized_iff b).1 hb
  refine ⟨Equal_some_iff sa sb, ?_, ?_, by decide⟩
  · obtain ⟨r, h1, h2⟩ := Equal_some_iff sa sa
    refine ⟨r, h1, ?_⟩
    rw [h2, Items_some]
    constructor
    · rintro ⟨-, h⟩ x hx
      obtain ⟨i, hi, rfl⟩ := List.mem_iff_getElem.1 hx
      have := h i hi
      rwa [List.getElem?_eq_getElem hi, Option.some_beq_some] at this
    · intro h
      refine ⟨rfl, fun i hi => ?_⟩
      rw [List.getElem?_eq_getElem hi, Option.some_beq_some]
      exact h _ (List.getElem_mem hi)
  · obtain ⟨r1, h1, h2⟩ := Equal_some_iff sa sb
    obtain ⟨r2, h3, h4⟩ := Equal_some_iff sb sa
    rw [h1, h3]
    congr 1
    rw [Bool.eq_iff_iff, h2, h4]
    constructor
    · rintro ⟨hl, h⟩
      exact ⟨hl.symm, fun i hi => by rw [option_beq_comm]; exact h i (hl ▸ hi)⟩
    · rintro ⟨hl, h⟩
      exact ⟨hl.symm, fun i hi => by rw [option_beq_comm]; exact h i (hl ▸ hi)⟩

/-- C6 (amended) at a concrete input: the set of `float64` that holds a NaN
twice, against itself. -/
theorem C6_equal_is_positionwise_witness :
    Initialized nanTwice = true ∧
    (∃ r, Equal nanTwice nanTwice = .ok r ∧
      (r = true ↔ (Items nanTwice).length = (Items nanTwice).length ∧
        ∀ i, i < (Items nanTwice).length →
          ((Items nanTwice)[i]? == (Items nanTwice)[i]?) = true)) ∧
    (∃ r, Equal nanTwice nanTwice = .ok r ∧ (r = true ↔ SelfEqual (Items nanTwice))) ∧
    Equal nanTwice nanTwice = Equal nanTwice nanTwice ∧
    ((From [1, 2, 3]).bind fun s => (From [3, 2, 1]).bind fun t => Equal s t) = .ok false :=
  ⟨rfl, C6_equal_is_positionwise nanTwice nanTwice rfl rfl⟩

end EqualBeq

/-! ## JSON -/

section Decoding
variable {T : Type} [DecidableEq T]

/-- C7 (the code at the failing input): decoding the array `[1,1]` into a
freshly declared set, or into `New(0)`, takes the direct-assign path and gives
`Items() = [1,1]` and `Size() = 2` with one contained value. -/
theorem C7_decode_keeps_duplicates_at_11 :
    (UnmarshalJSON (listJSON Nat) (some zero) [1, 1]).map
        (fun r => (Items r.1, Size r.1, Contains r.1 1)) = .ok ([1, 1], 2, true) ∧
    (UnmarshalJSON (listJSON Nat) (New 0) [1, 1]).map
        (fun r => (Items r.1, Size r.1, Contains r.1 1)) = .ok ([1, 1], 2, true) := by
  decide

/-- The marking loop of the direct-assign path succeeds on a made map. -/
theorem markAll_some (xs : List T) :
    ∀ m : GoMap T Bool, ∃ m1, markAll (some m) xs = .ok (some m1) ∧
      ∀ y, mapIndex (some m1) y = (mapIndex (some m) y || decide (y ∈ xs)) := by
  induction xs with
  | nil =>
    intro m
    exact ⟨m, rfl, by simp⟩
  | cons x xs ih =>
    intro m
    obtain ⟨m1, h1, h2⟩ := ih (m.store x true)
    refine ⟨m1, by simp [markAll, mapAssign, h1], ?_⟩
    intro y
    rw [h2 y, mapIndex_store]
    by_cases hy : x = y
    · subst hy; simp
    · have : ¬ y = x := fun e => hy e.symm
      simp [hy, this]

/-- Sets built from `New` by inserts are initialized and consistent: the
sequence has no duplicates and holds exactly the keys the map reports. -/
theorem insertBuilt_consistent {s : Option (OrderedSet T)} (h : InsertBuilt s) :
    ∃ st m, s = some st ∧ st.set = some m ∧ st.items.elems.Nodup ∧
      ∀ x, mapIndex st.set x = true ↔ x ∈ st.items.elems := by
  induction h with
  | new size => exact ⟨_, [], rfl, rfl, by simp, by simp [mapIndex_empty]⟩
  | @insert s s1 modified item _ hins ih =>
    obtain ⟨st, m, rfl, hm, hnd, hmem⟩ := ih
    cases hx : mapIndex st.set item with
    | true =>
      rw [Insert_present st item hx] at hins
      simp only [Except.ok.injEq, Prod.mk.injEq] at hins
      exact ⟨st, m, hins.1.symm, hm, hnd, hmem⟩
    | false =>
      rw [Insert_absent st m item hm hx] at hins
      simp only [Except.ok.injEq, Prod.mk.injEq] at hins
      refine ⟨_, _, hins.1.symm, rfl, ?_, ?_⟩
      · rw [Slice.append_elems]
        have hni : item ∉ st.items.elems := fun hi => by
          have := (hmem item).2 hi
          rw [hx] at this
          exact Bool.false_ne_true this
        exact List.Nodup.append hnd (List.nodup_singleton item) (by simpa using hni)
      · intro x
        rw [mapIndex_store, Slice.append_elems, List.mem_append, List.mem_singleton, ← hmem x,
          hm]
        by_cases hxi : item = x
        · subst hxi; simp
        · have : ¬ x = item := fun e => hxi e.symm
          simp [hxi, this]
  | @insertMany s s1 modified items _ hins ih =>
    obtain ⟨st, m, rfl, hm, hnd, hmem⟩ := ih
    obtain ⟨st1, h1, h2, ⟨m1, hm1⟩, h4⟩ := insertLoop_initialized items st m false hm
    rw [InsertMany, h1] at hins
    simp only [Except.ok.injEq, Prod.mk.injEq] at hins
    refine ⟨st1, m1, hins.1.symm, hm1, ?_, ?_⟩
    · rw [h2]
      refine List.Nodup.append hnd (nodup_firstOccurrences _) ?_
      intro x hx1 hx2
      rw [mem_firstOccurrences, List.mem_filter] at hx2
      have := (hmem x).2 hx1
      simp [this] at hx2
    · intro x
      rw [h4 x, h2, List.mem_append, mem_firstOccurrences, List.mem_filter, ← hmem x]
      cases hx : mapIndex st.set x <;> simp

end Decoding

section RoundTrip
variable {T : Type} [DecidableEq T]

/-- Decoding an array into a freshly declared set: the direct-assign path. -/
theorem UnmarshalJSON_zero {B E : Type} (json : JSON B E T) (data : B) (items : Slice T)
    (h : json.unmarshal data = .ok items) :
    ∃ m, UnmarshalJSON json (some zero) data = .ok (some { set := some m, items := items }, none) := by
  obtain ⟨m1, h1, -⟩ := markAll_some items.elems ([] : GoMap T Bool)
  exact ⟨m1, by simp [UnmarshalJSON, h, zero, h1]⟩

/-- Decoding an array into `New(size)`: the direct-assign path when the
capacity is `0`, the insert path otherwise. -/
theorem UnmarshalJSON_New {B E : Type} (json : JSON B E T) (data : B) (items : Slice T)
    (size : Int) (h : json.unmarshal data = .ok items) :
    ∃ st, UnmarshalJSON json (New size) data = .ok (some st, none) ∧
      st.items.elems = if (max 0 size).toNat = 0 then items.elems
        else firstOccurrences items.elems := by
  by_cases hc : (max 0 size).toNat = 0
  · obtain ⟨m1, h1, -⟩ := markAll_some items.elems ([] : GoMap T Bool)
    exact ⟨{ set := some m1, items := items }, by simp [UnmarshalJSON, h, New, hc, h1], by simp [hc]⟩
  · obtain ⟨st, h1, h2, -, -⟩ := InsertMany_New size items.elems
    refine ⟨st, ?_, by simp [hc, h2]⟩
    simp only [New] at h1
    simp [UnmarshalJSON, h, New, hc, h1]

theorem listJSON_roundTrips (T : Type) : (listJSON T).RoundTrips :=
  ⟨fun xs _ => ⟨xs, xs.length, rfl, rfl⟩, ⟨0, rfl⟩⟩

/-- C8: for a round-tripping element codec and a set `s` built from `New` by
inserts, `MarshalJSON` succeeds with the literal `[]` when `s` is empty and
with the encoding of `Items()` otherwise; the encoding decodes to the array of
`Items()`; and `UnmarshalJSON` of it into a fresh target (freshly declared, or
`New(size)`) succeeds with a set `t` such that `t.Items() = s.Items()` and
`s.Equal(t)` is true. -/
theorem C8_json_round_trip {B E : Type} (json : JSON B E T) (hrt : json.RoundTrips)
    (s : OrderedSet T) (hs : InsertBuilt (some s)) (size : Int) :
    ∃ data, MarshalJSON json s = .ok data ∧
      ((Items (some s) = [] ∧ data = json.emptyArray) ∨
        (Items (some s) ≠ [] ∧ json.marshal (Items (some s)) = .ok data)) ∧
      (∃ cap, json.unmarshal data = .ok { elems := Items (some s), cap := cap }) ∧
      ∀ target, target = some zero ∨ target = New size →
        ∃ t, UnmarshalJSON json target data = .ok (t, none) ∧
          Items t = Items (some s) ∧ Equal (some s) t = .ok true := by
  obtain ⟨st, m, hst, -, hnd, -⟩ := insertBuilt_consistent hs
  cases hst
  rw [Items_some]
  have key : ∀ data cap, json.unmarshal data = .ok { elems := s.items.elems, cap := cap } →
      ∀ target, target = some zero ∨ target = New size →
        ∃ t, UnmarshalJSON json target data = .ok (t, none) ∧
          Items t = s.items.elems ∧ Equal (some s) t = .ok true := by
    intro data cap hdec target ht
    rcases ht with rfl | rfl
    · obtain ⟨m1, h1⟩ := UnmarshalJSON_zero json data _ hdec
      exact ⟨_, h1, rfl, by simp [Equal_some]⟩
    · obtain ⟨t, h1, h2⟩ := UnmarshalJSON_New json data _ size hdec
      have h3 : t.items.elems = s.items.elems := by
        rw [h2]
        split
        · rfl
        · exact firstOccurrences_of_nodup _ hnd
      exact ⟨_, h1, by rw [Items_some, h3], by simp [Equal_some, h3]⟩
  by_cases he : s.items.elems = []
  · obtain ⟨cap, hdec⟩ := hrt.2
    rw [← he] at hdec
    exact ⟨json.emptyArray, by simp [MarshalJSON, OrderedSet.Empty, he], Or.inl ⟨he, rfl⟩,
      ⟨cap, hdec⟩, key _ cap hdec⟩
  · obtain ⟨data, cap, henc, hdec⟩ := hrt.1 s.items.elems he
    refine ⟨data, ?_, Or.inr ⟨he, henc⟩, ⟨cap, hdec⟩, key _ cap hdec⟩
    simp [MarshalJSON, OrderedSet.Empty, he, henc]

/-- C8 at a concrete input: the set `From(3, 1, 2)` with the list codec, whose
encoding is the array `[3,1,2]`. -/
theorem C8_json_round_trip_witness :
    ((listJSON Nat).RoundTrips ∧ InsertBuilt set312) ∧
    ∃ data, MarshalJSON (listJSON Nat) ⟨some [(3, true), (1, true), (2, true)], ⟨[3, 1, 2], 3⟩⟩
        = .ok data ∧
      ((Items set312 = [] ∧ data = (listJSON Nat).emptyArray) ∨
        (Items set312 ≠ [] ∧ (listJSON Nat).marshal (Items set312) = .ok data)) ∧
      (∃ cap, (listJSON Nat).unmarshal data = .ok { elems := Items set312, cap := cap }) ∧
      ∀ target, target = some zero ∨ target = New 0 →
        ∃ t, UnmarshalJSON (listJSON Nat) target data = .ok (t, none) ∧
          Items t = Items set312 ∧ Equal set312 t = .ok true :=
  have hb : InsertBuilt set312 :=
    InsertBuilt.insertMany [3, 1, 2] (InsertBuilt.new 3)
      (by decide : InsertMany (New 3) [3, 1, 2] = .ok (set312, true))
  ⟨⟨listJSON_roundTrips Nat, hb⟩, C8_json_round_trip (listJSON Nat) (listJSON_roundTrips Nat) _ hb 0⟩

/-- The scenario of C8: the set `[3,1,2]` encodes to the array `[3,1,2]`, which
decodes into a freshly declared set with `Items() = [3,1,2]`. -/
theorem scenario_round_trip_312 :
    ((From [3, 1, 2]).map fun s => s.map (MarshalJSON (listJSON Nat))) = .ok (some (.ok [3, 1, 2])) ∧
    (UnmarshalJSON (listJSON Nat) (some zero) [3, 1, 2]).map (fun r => Items r.1)
      = .ok [3, 1, 2] := by
  decide

end RoundTrip

/-! ## Delete and Contains -/

section DeleteContains
variable {T : Type} [DecidableEq T]

/-- C9: `Delete(x)` never fails, also on a nil or freshly declared set; after
it `Contains(x)` is false; and when `x` was not contained before, `Size()`,
`Items()` and `Contains(y)` for every `y` are unchanged. -/
theorem C9_delete_then_contains (s : Option (OrderedSet T)) (x : T) :
    ∃ s1, Delete s x = .ok s1 ∧ Contains s1 x = false ∧
      (Contains s x = false →
        Size s1 = Size s ∧ Items s1 = Items s ∧ ∀ y, Contains s1 y = Contains s y) := by
  cases s with
  | none => exact ⟨none, rfl, rfl, fun _ => ⟨rfl, rfl, fun _ => rfl⟩⟩
  | some st =>
    refine ⟨_, Delete_some st x, ?_, ?_⟩
    · simp [Contains_some, mapIndex_mapDelete]
    · intro hx
      refine ⟨rfl, rfl, ?_⟩
      intro y
      rw [Contains_some, Contains_some, mapIndex_mapDelete]
      by_cases hy : x = y
      · subst hy
        rw [Contains_some] at hx
        simp [hx]
      · simp [hy]

/-- Instances of C9: `Delete` on the nil set and on a freshly declared set
changes nothing, and deleting an absent item from `From(3, 1)` leaves it as it is. -/
theorem scenario_delete_absent :
    Delete (none : Option (OrderedSet Nat)) 7 = .ok none ∧
    Delete (some (zero : OrderedSet Nat)) 7 = .ok (some zero) ∧
    Delete set31 7 = .ok set31 := by
  decide

end DeleteContains

/-! ## The ordered set in memory -/

namespace Mem

section Frame
variable {T : Type}

theorem getD_set_ne {α : Type} (l : List α) (i j : Nat) (v d : α) (hij : i ≠ j) :
    (l.set i v).getD j d = l.getD j d := by
  simp [List.getD_eq_getElem?_getD, List.getElem?_set_ne hij]

theorem getD_set_self {α : Type} (l : List α) (i : Nat) (v d : α) (hi : i < l.length) :
    (l.set i v).getD i d = v := by
  simp [List.getD_eq_getElem?_getD, List.getElem?_set_self hi]

theorem getD_append_left {α : Type} (l l2 : List α) (i : Nat) (d : α) (hi : i < l.length) :
    (l ++ l2).getD i d = l.getD i d := by
  simp [List.getD_eq_getElem?_getD, List.getElem?_append_left hi]

theorem getD_of_getElem? {α : Type} (l : List α) (i : Nat) (v d : α) (hi : l[i]? = some v) :
    l.getD i d = v := by
  simp [List.getD_eq_getElem?_getD, hi]

/-- Two heaps give the struct at `q` the same value when they hold the same
struct there and agree on its map and on its backing array. -/
theorem view_congr (h h2 : Heap T) (q : Nat) (oq : Object)
    (hq : h.objects[q]? = some oq) (hq2 : h2.objects[q]? = some oq)
    (hmap : ∀ m, oq.set = some m → h2.maps.getD m [] = h.maps.getD m [])
    (harr : ∀ r, oq.items.array = some r → h2.arrays.getD r [] = h.arrays.getD r []) :
    view h2 (some q) = view h (some q) := by
  simp only [view, hq, hq2, mapValue, sliceElems]
  congr 2
  · cases hs : oq.set with
    | none => rfl
    | some m => simp only [Option.map_some', hmap m hs]
  · cases ha : oq.items.array with
    | none => rfl
    | some r => simp only [harr r ha]

theorem sliceElems_length (h : Heap T) (s : SliceHeader) (hs : s.Valid h) :
    (sliceElems h s).length = s.len := by
  obtain ⟨hlen, harr⟩ := hs
  unfold sliceElems
  cases ha : s.array with
  | none =>
    rw [ha] at harr
    simp only at harr
    simp; omega
  | some r =>
    rw [ha] at harr
    obtain ⟨arr, h1, h2⟩ := harr
    simp only [getD_of_getElem? h.arrays r arr [] h1, List.length_take]
    omega

end Frame

section InsertSpec
variable {T : Type}

theorem take_succ_set {α : Type} (l : List α) (n : Nat) (x : α) (hn : n < l.length) :
    (l.set n x).take (n + 1) = l.take n ++ [x] := by
  rw [List.take_succ, List.getElem?_set_self hn, List.set_take,
    List.set_eq_of_length_le (by simp)]
  rfl

theorem take_append_cells {α : Type} (l rest : List α) (x : α) (n : Nat) (hn : l.length = n) :
    (l ++ [x] ++ rest).take (n + 1) = l ++ [x] := by
  rw [List.take_append_of_le_length (by simp [hn])]
  exact List.take_of_length_le (by simp [hn])

theorem lt_length_of_getElem? {α : Type} (l : List α) (i : Nat) (v : α) (h : l[i]? = some v) :
    i < l.length := by
  rcases Nat.lt_or_ge i l.length with hlt | hge
  · exact hlt
  · rw [List.getElem?_eq_none hge] at h
    cases h

/-- The value of an initialized struct in a valid heap. -/
theorem view_valid (h : Heap T) (p : Nat) (op : Object) (m : Nat) (entries : GoMap T Bool)
    (hop : h.objects[p]? = some op) (hm : op.set = some m) (he : h.maps[m]? = some entries) :
    view h (some p) =
      some { set := some entries,
             items := { elems := sliceElems h op.items, cap := op.items.cap } } := by
  simp only [view, hop, mapValue, hm, Option.map_some', getD_of_getElem? _ _ _ _ he]

theorem sliceElems_eq (h : Heap T) (s : SliceHeader) (r : Nat) (arr : List T)
    (hs : s.array = some r) (har : h.arrays[r]? = some arr) :
    sliceElems h s = arr.take s.len := by
  simp only [sliceElems, hs, getD_of_getElem? _ _ _ _ har]

theorem sliceElems_arrays (h h2 : Heap T) (s : SliceHeader) (he : h2.arrays = h.arrays) :
    sliceElems h2 s = sliceElems h s := by
  simp only [sliceElems, he]

theorem Slice.append_lt (s : Slice T) (x : T) (h : s.elems.length < s.cap) :
    s.append x = { elems := s.elems ++ [x], cap := s.cap } := by
  simp [Slice.append, h]

theorem Slice.append_ge (s : Slice T) (x : T) (h : ¬ s.elems.length < s.cap) :
    s.append x = { elems := s.elems ++ [x], cap := growCap s.cap (s.elems.length + 1) } := by
  simp [Slice.append, h]

theorem sliceElems_some (h : Heap T) (r len cap : Nat) :
    sliceElems h { array := some r, len := len, cap := cap } = (h.arrays.getD r []).take len :=
  rfl

theorem getD_append_length {α : Type} (l : List α) (v d : α) :
    (l ++ [v]).getD l.length d = v := by
  rw [List.getD_eq_getElem?_getD, List.getElem?_append_right (le_refl _)]
  simp

variable [BEq T] [Inhabited T]

/-- The method `Insert` over the heap does to the struct at `p` what the
value-passing `Insert` does to its value, and leaves the value of every other
struct that shares neither the map nor a writable cell with it. -/
theorem Insert_spec (h : Heap T) (p : Nat) (x : T) (hv : Valid h p) :
    ∃ h2 b, Mem.Insert h (some p) x = .ok (h2, b) ∧
      OrderedSet.Insert (view h (some p)) x = .ok (view h2 (some p), b) ∧
      ∀ q op oq, q ≠ p → h.objects[p]? = some op → h.objects[q]? = some oq →
        oq.set ≠ op.set →
        (op.items.len < op.items.cap → oq.items.array ≠ op.items.array) →
        (∀ r, oq.items.array = some r → r < h.arrays.length) →
        view h2 (some q) = view h (some q) := by
  obtain ⟨op, hop, ⟨m, hm, hmlt⟩, hsv⟩ := hv
  obtain ⟨entries, he⟩ : ∃ e, h.maps[m]? = some e := ⟨_, List.getElem?_eq_getElem hmlt⟩
  have hplt := lt_length_of_getElem? _ _ _ hop
  have hlen := sliceElems_length h op.items hsv
  have hview := view_valid h p op m entries hop hm he
  have hmv : mapValue h (some m) = some entries := by
    simp only [mapValue, Option.map_some', getD_of_getElem? _ _ _ _ he]
  cases hx : mapIndex (some entries) x with
  | true =>
    refine ⟨h, false, ?_, ?_, fun _ _ _ _ _ _ _ _ _ => rfl⟩
    · simp [Mem.Insert, hop, hm, hmv, hx]
    · rw [hview]
      exact Insert_present _ x hx
  | false =>
    by_cases hcap : op.items.len < op.items.cap
    · -- the cell after the last element is written in place
      obtain ⟨hle, harr⟩ := hsv
      cases ha : op.items.array with
      | none =>
        rw [ha] at harr
        simp only at harr
        omega
      | some r =>
        rw [ha] at harr
        obtain ⟨arr, har, hcl⟩ := harr
        have hrlt := lt_length_of_getElem? _ _ _ har
        have hobj : (h.objects.set p
            { set := op.set,
              items := { array := some r, len := op.items.len + 1, cap := op.items.cap } })[p]? =
            some { set := op.set,
                   items := { array := some r, len := op.items.len + 1,
                              cap := op.items.cap } } :=
          List.getElem?_set_self hplt
        refine ⟨{ maps := h.maps.set m (entries.store x true),
                  arrays := h.arrays.set r (arr.set op.items.len x),
                  objects := h.objects.set p
                    { set := op.set,
                      items := { array := some r, len := op.items.len + 1,
                                 cap := op.items.cap } } },
                true, ?_, ?_, ?_⟩
        · simp [Mem.Insert, hop, hm, hmv, hx, Mem.mapAssign, he, Mem.append, hcap, ha, har]
        · rw [hview, Insert_absent _ entries x rfl hx,
            view_valid _ p
              { set := op.set,
                items := { array := some r, len := op.items.len + 1, cap := op.items.cap } }
              m (entries.store x true) hobj hm (List.getElem?_set_self hmlt),
            Slice.append_lt _ _ (by rw [hlen]; exact hcap),
            sliceElems_eq h op.items r arr ha har, sliceElems_some]
          simp only [getD_set_self _ _ _ _ hrlt,
            take_succ_set arr op.items.len x (by omega)]
        · intro q op1 oq hqp hop1 hoq hset harr1 _
          rw [hop] at hop1
          cases hop1
          refine view_congr _ _ q oq hoq ?_ ?_ ?_
          · exact (List.getElem?_set_ne (Ne.symm hqp)).trans hoq
          · intro mq hmq
            exact getD_set_ne _ _ _ _ _ (fun e => hset (by rw [hmq, hm, e]))
          · intro rq hrq
            exact getD_set_ne _ _ _ _ _ (fun e => harr1 hcap (by rw [hrq, ha, e]))
    · -- the elements move to a new array
      have hobj : (h.objects.set p
          { set := op.set,
            items := { array := some h.arrays.length, len := op.items.len + 1,
                       cap := growCap op.items.cap (op.items.len + 1) } })[p]? =
          some { set := op.set,
                 items := { array := some h.arrays.length, len := op.items.len + 1,
                            cap := growCap op.items.cap (op.items.len + 1) } } :=
        List.getElem?_set_self hplt
      refine ⟨{ maps := h.maps.set m (entries.store x true),
                arrays := h.arrays ++ [sliceElems h op.items ++ [x] ++
                  List.replicate (growCap op.items.cap (op.items.len + 1) - (op.items.len + 1))
                    default],
                objects := h.objects.set p
                  { set := op.set,
                    items := { array := some h.arrays.length, len := op.items.len + 1,
                               cap := growCap op.items.cap (op.items.len + 1) } } },
              true, ?_, ?_, ?_⟩
      · simp [Mem.Insert, hop, hm, hmv, hx, Mem.mapAssign, he, Mem.append, hcap, sliceElems]
      · rw [hview, Insert_absent _ entries x rfl hx,
          view_valid _ p
            { set := op.set,
              items := { array := some h.arrays.length, len := op.items.len + 1,
                         cap := growCap op.items.cap (op.items.len + 1) } }
            m (entries.store x true) hobj hm (List.getElem?_set_self hmlt),
          Slice.append_ge _ _ (by rw [hlen]; exact hcap), sliceElems_some]
        simp only [getD_append_length, take_append_cells _ _ _ _ hlen, hlen]
      · intro q op1 oq hqp hop1 hoq hset _ hlt
        rw [hop] at hop1
        cases hop1
        refine view_congr _ _ q oq hoq ?_ ?_ ?_
        · exact (List.getElem?_set_ne (Ne.symm hqp)).trans hoq
        · intro mq hmq
          exact getD_set_ne _ _ _ _ _ (fun e => hset (by rw [hmq, hm, e]))
        · intro rq hrq
          exact getD_append_left _ _ _ _ (hlt rq hrq)

end InsertSpec

section DeleteSpec
variable {T : Type} [Inhabited T]

theorem slicesDelete_heap_same (h : Heap T) (s : SliceHeader) (i : Int) (h0 : 0 ≤ i)
    (h1 : i ≤ (s.len : Int)) : Mem.slicesDelete h s i i = .ok (h, s) := by
  unfold Mem.slicesDelete
  rw [if_pos ⟨h0, le_refl _, h1⟩]
  simp

variable [BEq T]

/-- The method `Delete` over the heap does to the struct at `p` what the
value-passing `Delete` does to its value, and leaves the value of every other
struct that does not share the map with it. -/
theorem Delete_spec (h : Heap T) (p : Nat) (x : T) (hv : Valid h p) :
    ∃ h2, Mem.Delete h (some p) x = .ok h2 ∧
      OrderedSet.Delete (view h (some p)) x = .ok (view h2 (some p)) ∧
      ∀ q op oq, q ≠ p → h.objects[p]? = some op → h.objects[q]? = some oq →
        oq.set ≠ op.set → view h2 (some q) = view h (some q) := by
  obtain ⟨op, hop, ⟨m, hm, hmlt⟩, hsv⟩ := hv
  obtain ⟨entries, he⟩ : ∃ e, h.maps[m]? = some e := ⟨_, List.getElem?_eq_getElem hmlt⟩
  have hplt := lt_length_of_getElem? _ _ _ hop
  have hlen := sliceElems_length h op.items hsv
  have hview := view_valid h p op m entries hop hm he
  have hel : sliceElems { maps := h.maps.set m (entries.remove x), arrays := h.arrays,
                          objects := h.objects } op.items = sliceElems h op.items := rfl
  have hval : OrderedSet.Delete (view h (some p)) x =
      .ok (some { set := some (entries.remove x),
                  items := { elems := sliceElems h op.items, cap := op.items.cap } }) := by
    rw [hview, Delete_some]
    rfl
  have hframe : ∀ (objs : List Object), objs[p]? = some op → (∀ q, q ≠ p → objs[q]? = h.objects[q]?) →
      view { maps := h.maps.set m (entries.remove x), arrays := h.arrays, objects := objs } (some p)
          = some { set := some (entries.remove x),
                   items := { elems := sliceElems h op.items, cap := op.items.cap } } ∧
      ∀ q op1 oq, q ≠ p → h.objects[p]? = some op1 → h.objects[q]? = some oq →
        oq.set ≠ op1.set →
        view { maps := h.maps.set m (entries.remove x), arrays := h.arrays, objects := objs }
          (some q) = view h (some q) := by
    intro objs hp hq
    constructor
    · rw [view_valid _ p op m (entries.remove x) hp hm (List.getElem?_set_self hmlt)]
      rfl
    · intro q op1 oq hqp hop1 hoq hset
      rw [hop] at hop1
      cases hop1
      refine view_congr _ _ q oq hoq ?_ ?_ ?_
      · exact (hq q hqp).trans hoq
      · intro mq hmq
        exact getD_set_ne _ _ _ _ _ (fun e => hset (by rw [hmq, hm, e]))
      · intro _ _
        rfl
  by_cases hi : slicesIndex { elems := sliceElems h op.items, cap := op.items.cap } x ≠ -1
  · have hb0 : 0 ≤ slicesIndex { elems := sliceElems h op.items, cap := op.items.cap } x ∧
        slicesIndex { elems := sliceElems h op.items, cap := op.items.cap } x ≤ (op.items.len : Int) := by
      rcases slicesIndex_bounds { elems := sliceElems h op.items, cap := op.items.cap } x
        with h1 | h1
      · exact absurd h1 hi
      · rw [← hlen]
        exact h1
    obtain ⟨hf1, hf2⟩ := hframe (h.objects.set p op) (List.getElem?_set_self hplt)
      (fun q hqp => List.getElem?_set_ne (Ne.symm hqp))
    refine ⟨{ maps := h.maps.set m (entries.remove x), arrays := h.arrays,
              objects := h.objects.set p op }, ?_, ?_, hf2⟩
    · have heta : ∀ o : Object, o.set = some m →
          ({ set := some m, items := o.items } : Object) = o := by
        intro o ho
        cases o
        simp only at ho
        subst ho
        rfl
      simp only [Mem.Delete, hop, Mem.mapDelete, hm, he, hel, hi, ne_eq, not_false_eq_true,
        if_true, slicesDelete_heap_same _ _ _ hb0.1 hb0.2, heta op hm]
    · rw [hval, hf1]
  · obtain ⟨hf1, hf2⟩ := hframe h.objects hop (fun _ _ => rfl)
    refine ⟨{ maps := h.maps.set m (entries.remove x), arrays := h.arrays,
              objects := h.objects }, ?_, ?_, hf2⟩
    · simp only [Mem.Delete, hop, Mem.mapDelete, hm, he, hel, hi, if_false]
    · rw [hval, hf1]

end DeleteSpec

section CloneSpec
variable {T : Type} [Inhabited T]

theorem growCap_zero (n : Nat) : growCap 0 n = n := by
  simp [growCap]

/-- The method `Clone` over the heap allocates a new struct at the end of the
heap, with a new map and, unless the sequence is empty, a new backing array:
the new struct has the value the value-passing `Clone` gives, the struct at `p`
keeps its value, and the two share neither the map nor a writable cell. -/
theorem Clone_spec (h : Heap T) (p : Nat) (op : Object) (hv : Valid h p)
    (hop : h.objects[p]? = some op) :
    ∃ h1 c oc, Mem.Clone h (some p) = .ok (h1, some c) ∧
      view h1 (some c) = OrderedSet.Clone (view h (some p)) ∧
      view h1 (some p) = view h (some p) ∧
      Valid h1 c ∧ p ≠ c ∧
      h1.objects[p]? = some op ∧ h1.objects[c]? = some oc ∧ op.set ≠ oc.set ∧
      (oc.items.len < oc.items.cap → op.items.array ≠ oc.items.array) ∧
      ∀ r, op.items.array = some r → r < h1.arrays.length := by
  obtain ⟨op1, hop1, ⟨m, hm, hmlt⟩, hsv⟩ := hv
  rw [hop] at hop1
  cases hop1
  obtain ⟨entries, he⟩ : ∃ e, h.maps[m]? = some e := ⟨_, List.getElem?_eq_getElem hmlt⟩
  have hplt := lt_length_of_getElem? _ _ _ hop
  have hlen := sliceElems_length h op.items hsv
  have hview := view_valid h p op m entries hop hm he
  have harrlt : ∀ r, op.items.array = some r → r < h.arrays.length := by
    intro r hr
    obtain ⟨_, harr⟩ := hsv
    rw [hr] at harr
    obtain ⟨arr, har, _⟩ := harr
    exact lt_length_of_getElem? _ _ _ har
  have hpc : p ≠ h.objects.length := Nat.ne_of_lt hplt
  have hsetne : ∀ it : SliceHeader, op.set ≠ (Object.mk (some h.maps.length) it).set := by
    intro it e
    rw [hm] at e
    simp only [Option.some.injEq] at e
    omega
  by_cases hz : op.items.len = 0
  · -- the empty sequence: `s[:0:0]`
    have hoc : (h.objects ++ [Object.mk (some h.maps.length)
        { array := op.items.array, len := 0, cap := 0 }])[h.objects.length]? =
        some (Object.mk (some h.maps.length) { array := op.items.array, len := 0, cap := 0 }) := by
      rw [List.getElem?_append_right (le_refl _)]
      simp
    have hnil : sliceElems h op.items = [] := List.eq_nil_of_length_eq_zero (hlen.trans hz)
    refine ⟨{ maps := h.maps ++ [h.maps.getD m []], arrays := h.arrays,
              objects := h.objects ++ [Object.mk (some h.maps.length)
                { array := op.items.array, len := 0, cap := 0 }] },
            h.objects.length, _, ?_, ?_, ?_, ?_, hpc, ?_, hoc, hsetne _, ?_, harrlt⟩
    · simp [Mem.Clone, hop, Mem.mapsClone, hm, Mem.slicesClone, hz]
    · rw [hview, view_valid _ _ _ h.maps.length entries hoc rfl
        (by rw [List.getElem?_append_right (le_refl _)]; simp [he])]
      simp only [OrderedSet.Clone, Collections.mapsClone, Collections.slicesClone, Option.map_some',
        hnil, List.length_nil, growCap_zero]
      congr 3
      simp only [sliceElems, List.take_zero]
      split <;> rfl
    · refine view_congr _ _ p op hop ?_ ?_ ?_
      · exact (List.getElem?_append_left hplt).trans hop
      · intro mq hmq
        rw [hm] at hmq
        cases hmq
        exact getD_append_left _ _ _ _ hmlt
      · intro _ _
        rfl
    · refine ⟨_, hoc, ⟨h.maps.length, rfl, by simp⟩, Nat.le_refl _, ?_⟩
      cases ha : op.items.array with
      | none => simp
      | some r =>
        obtain ⟨_, harr⟩ := hsv
        rw [ha] at harr
        obtain ⟨arr, har, _⟩ := harr
        exact ⟨arr, har, Nat.zero_le _⟩
    · exact (List.getElem?_append_left hplt).trans hop
    · intro hlt
      simp at hlt
  · -- a non-empty sequence is copied into a new array
    have hoc : (h.objects ++ [Object.mk (some h.maps.length)
        { array := some h.arrays.length, len := op.items.len,
          cap := growCap 0 op.items.len }])[h.objects.length]? =
        some (Object.mk (some h.maps.length)
          { array := some h.arrays.length, len := op.items.len,
            cap := growCap 0 op.items.len }) := by
      rw [List.getElem?_append_right (le_refl _)]
      simp
    have hcells : sliceElems h op.items ++
        List.replicate (growCap 0 op.items.len - op.items.len) (default : T)
          = sliceElems h op.items := by
      simp [growCap_zero]
    refine ⟨{ maps := h.maps ++ [h.maps.getD m []],
              arrays := h.arrays ++ [sliceElems h op.items ++
                List.replicate (growCap 0 op.items.len - op.items.len) default],
              objects := h.objects ++ [Object.mk (some h.maps.length)
                { array := some h.arrays.length, len := op.items.len,
                  cap := growCap 0 op.items.len }] },
            h.objects.length, _, ?_, ?_, ?_, ?_, hpc, ?_, hoc, hsetne _, ?_, ?_⟩
    · simp [Mem.Clone, hop, Mem.mapsClone, hm, Mem.slicesClone, hz, sliceElems]
    · rw [hview, view_valid _ _ _ h.maps.length entries hoc rfl
        (by rw [List.getElem?_append_right (le_refl _)]; simp [he]), sliceElems_some]
      simp only [OrderedSet.Clone, Collections.mapsClone, Collections.slicesClone, Option.map_some',
        getD_append_length, hcells, hlen]
      congr 3
      exact List.take_of_length_le (le_of_eq hlen)
    · refine view_congr _ _ p op hop ?_ ?_ ?_
      · exact (List.getElem?_append_left hplt).trans hop
      · intro mq hmq
        rw [hm] at hmq
        cases hmq
        exact getD_append_left _ _ _ _ hmlt
      · intro r hr
        exact getD_append_left _ _ _ _ (harrlt r hr)
    · refine ⟨_, hoc, ⟨h.maps.length, rfl, by simp⟩, ?_, ?_⟩
      · simp [growCap_zero]
      · refine ⟨sliceElems h op.items ++
            List.replicate (growCap 0 op.items.len - op.items.len) default, ?_, ?_⟩
        · show (h.arrays ++ [_])[h.arrays.length]? = _
          rw [List.getElem?_append_right (le_refl _)]
          simp
        · simp [growCap_zero, hlen]
    · exact (List.getElem?_append_left hplt).trans hop
    · intro _ e
      have := harrlt _ e
      omega
    · intro r hr
      have := harrlt r hr
      simp only [List.length_append, List.length_singleton]
      omega

end CloneSpec

end Mem

/-! ## Clone -/

section CloneIndependent
variable {T : Type} [BEq T] [Inhabited T]

/-- C10 (the claim fails): the clone of a set of `float64` that holds a NaN is
not `Equal` to the set. -/
theorem C10_clone_of_nan_not_equal :
    ((Mem.Clone heapNan (some 0)).bind fun r =>
        Equal (Mem.view r.1 (some 0)) (Mem.view r.1 r.2)) = .ok false := by
  decide

/-- C10 (amended): for an initialized set at address `a`, `a.Clone()` succeeds
and gives a set `c` with the same `Items()` and the same `Contains` answers;
`a.Equal(c)` is true iff every item of `a` is equal to itself; cloning leaves
the value of `a` as it was; and for every `x`, `c.Insert(x)` and `c.Delete(x)`
succeed, change `c` as `Insert` and `Delete` do, and leave the value of `a`
(hence `a.Contains(x)`, `a.Items()` and `a.Size()`) as it was before. -/
theorem C10_clone_is_equal_and_independent (h : Mem.Heap T) (a : Nat) (ha : Mem.Valid h a) :
    ∃ h1 c, Mem.Clone h (some a) = .ok (h1, c) ∧
      Mem.view h1 c = OrderedSet.Clone (Mem.view h (some a)) ∧
      (∃ r, Equal (Mem.view h1 (some a)) (Mem.view h1 c) = .ok r ∧
        (r = true ↔ SelfEqual (Items (Mem.view h (some a))))) ∧
      Items (Mem.view h1 c) = Items (Mem.view h (some a)) ∧
      (∀ y, Contains (Mem.view h1 c) y = Contains (Mem.view h (some a)) y) ∧
      Mem.view h1 (some a) = Mem.view h (some a) ∧
      ∀ x,
        (∃ h2 modified, Mem.Insert h1 c x = .ok (h2, modified) ∧
          OrderedSet.Insert (Mem.view h1 c) x = .ok (Mem.view h2 c, modified) ∧
          Mem.view h2 (some a) = Mem.view h (some a) ∧
          Contains (Mem.view h2 (some a)) x = Contains (Mem.view h (some a)) x ∧
          Items (Mem.view h2 (some a)) = Items (Mem.view h (some a)) ∧
          Size (Mem.view h2 (some a)) = Size (Mem.view h (some a))) ∧
        (∃ h2, Mem.Delete h1 c x = .ok h2 ∧
          OrderedSet.Delete (Mem.view h1 c) x = .ok (Mem.view h2 c) ∧
          Mem.view h2 (some a) = Mem.view h (some a) ∧
          Contains (Mem.view h2 (some a)) x = Contains (Mem.view h (some a)) x ∧
          Items (Mem.view h2 (some a)) = Items (Mem.view h (some a)) ∧
          Size (Mem.view h2 (some a)) = Size (Mem.view h (some a))) := by
  obtain ⟨op, hop, hrest⟩ := id ha
  obtain ⟨h1, c, oc, hclone, hvc, hva, hvalid, hne, hpa, hpc, hset, harr, hlt⟩ :=
    Mem.Clone_spec h a op ha hop
  obtain ⟨⟨m, hm, hmlt⟩, -⟩ := hrest
  obtain ⟨sa, hsa⟩ : ∃ sa, Mem.view h (some a) = some sa := by
    simp [Mem.view, hop]
  refine ⟨h1, some c, hclone, hvc, ?_, ?_, ?_, hva, ?_⟩
  · rw [hva, hvc, hsa]
    exact Equal_same_items sa _ rfl
  · rw [hvc, hsa]
    rfl
  · intro y
    rw [hvc, hsa]
    simp [OrderedSet.Clone, Contains_some, mapsClone]
  · intro x
    constructor
    · obtain ⟨h2, b, hins, hsim, hframe⟩ := Mem.Insert_spec h1 c x hvalid
      have hfr := (hframe a oc op hne hpc hpa hset harr hlt).trans hva
      exact ⟨h2, b, hins, hsim, hfr, by rw [hfr], by rw [hfr], by rw [hfr]⟩
    · obtain ⟨h2, hdel, hsim, hframe⟩ := Mem.Delete_spec h1 c x hvalid
      have hfr := (hframe a oc op hne hpc hpa hset).trans hva
      exact ⟨h2, hdel, hsim, hfr, by rw [hfr], by rw [hfr], by rw [hfr]⟩

theorem heapNan_valid : Mem.Valid heapNan 0 :=
  ⟨_, rfl, ⟨0, rfl, by decide⟩, by decide, ⟨[Float64.nan], rfl, by decide⟩⟩

/-- C10 (amended) at a concrete input: the set `From(NaN)` of `float64` at
address `0` of `heapNan`. -/
theorem C10_clone_is_equal_and_independent_witness :
    Mem.Valid heapNan 0 ∧
    ∃ h1 c, Mem.Clone heapNan (some 0) = .ok (h1, c) ∧
      Mem.view h1 c = OrderedSet.Clone (Mem.view heapNan (some 0)) ∧
      (∃ r, Equal (Mem.view h1 (some 0)) (Mem.view h1 c) = .ok r ∧
        (r = true ↔ SelfEqual (Items (Mem.view heapNan (some 0))))) ∧
      Items (Mem.view h1 c) = Items (Mem.view heapNan (some 0)) ∧
      (∀ y, Contains (Mem.view h1 c) y = Contains (Mem.view heapNan (some 0)) y) ∧
      Mem.view h1 (some 0) = Mem.view heapNan (some 0) ∧
      ∀ x,
        (∃ h2 modified, Mem.Insert h1 c x = .ok (h2, modified) ∧
          OrderedSet.Insert (Mem.view h1 c) x = .ok (Mem.view h2 c, modified) ∧
          Mem.view h2 (some 0) = Mem.view heapNan (some 0) ∧
          Contains (Mem.view h2 (some 0)) x = Contains (Mem.view heapNan (some 0)) x ∧
          Items (Mem.view h2 (some 0)) = Items (Mem.view heapNan (some 0)) ∧
          Size (Mem.view h2 (some 0)) = Size (Mem.view heapNan (some 0))) ∧
        (∃ h2, Mem.Delete h1 c x = .ok h2 ∧
          OrderedSet.Delete (Mem.view h1 c) x = .ok (Mem.view h2 c) ∧
          Mem.view h2 (some 0) = Mem.view heapNan (some 0) ∧
          Contains (Mem.view h2 (some 0)) x = Contains (Mem.view heapNan (some 0)) x ∧
          Items (Mem.view h2 (some 0)) = Items (Mem.view heapNan (some 0)) ∧
          Size (Mem.view h2 (some 0)) = Size (Mem.view heapNan (some 0))) :=
  ⟨heapNan_valid, C10_clone_is_equal_and_independent heapNan 0 heapNan_valid⟩

/-- An instance of C10: the clone of the set `From(3, 1, 2)` of `heap312` is
`Equal` to it, and an `Insert(9)` on the clone leaves `Items()` of the set. -/
theorem scenario_clone_312 :
    ((Mem.Clone heap312 (some 0)).bind fun r =>
        Equal (Mem.view r.1 (some 0)) (Mem.view r.1 r.2)) = .ok true ∧
    ((Mem.Clone heap312 (some 0)).bind fun r =>
        (Mem.Insert r.1 r.2 9).map fun q => (Items (Mem.view q.1 (some 0)), Items (Mem.view q.1 r.2)))
      = .ok ([3, 1, 2], [3, 1, 2, 9]) := by
  decide

end CloneIndependent

/-! ## Equal and Insert on uninitialized sets -/

section Uninitialized
variable {T : Type} [DecidableEq T]

/-- With a nil argument `Equal` is true on an empty sequence and dereferences
the nil pointer on any other. -/
theorem Equal_nil_right (st : OrderedSet T) :
    Equal (some st) none
      = if st.items.elems = [] then .ok true else .error .nilDereference := by
  by_cases h : st.items.elems = []
  · simp [Equal, OrderedSet.Empty, h]
  · simp [Equal, OrderedSet.Empty, h]

/-- On a nil receiver `Equal` is true on an empty argument and dereferences the
nil pointer on any other. -/
theorem Equal_nil_left (st : OrderedSet T) :
    Equal none (some st)
      = if st.items.elems = [] then .ok true else .error .nilDereference := by
  by_cases h : st.items.elems = []
  · simp [Equal, OrderedSet.Empty, h]
  · simp [Equal, OrderedSet.Empty, h]

/-- C12 (the code at the failing input): with `s = From(1)` and a nil set `u`,
both `s.Equal(u)` and `u.Equal(s)` dereference the nil pointer, while
`s.Empty()` is false. -/
theorem C12_equal_nil_dereference_at_1 :
    ((From [1]).bind fun s => Equal s none) = .error .nilDereference ∧
    ((From [1]).bind fun s => Equal none s) = .error .nilDereference ∧
    (From [1]).map OrderedSet.Empty = .ok false := by
  decide

/-- C13 (the claim fails): on a freshly declared set `Insert(1)` and
`InsertMany(1)` panic on the assignment to the nil map. -/
theorem C13_insert_zero_value_panics :
    OrderedSet.Insert (some (zero : OrderedSet Nat)) 1 = .error .nilMapAssign ∧
    InsertMany (some (zero : OrderedSet Nat)) [1] = .error .nilMapAssign := by
  decide

end Uninitialized

section UninitializedBeq
variable {T : Type} [BEq T] [Comparable T]

/-- C13 (amended): on a freshly declared set, whose membership map is nil,
`Insert(x)` panics on the assignment to the nil map, and so does `InsertMany`
with at least one item, while `InsertMany` with no item returns false and
leaves the set; on `New(size)`, which makes the storage, `Insert(x)` returns
true and afterwards `Items() = [x]` and `Contains(x)` is true if `x == x` and
false if not, and `InsertMany(x, xs...)` returns true and afterwards `Items()`
is the first occurrences of its arguments and `Contains(x)` is as after
`Insert(x)`. -/
theorem C13_insert_needs_made_storage (x : T) (xs : List T) (size : Int) :
    OrderedSet.Insert (some (zero : OrderedSet T)) x = .error .nilMapAssign ∧
    InsertMany (some (zero : OrderedSet T)) (x :: xs) = .error .nilMapAssign ∧
    InsertMany (some (zero : OrderedSet T)) [] = .ok (some zero, false) ∧
    (∃ s1, OrderedSet.Insert (New size) x = .ok (s1, true) ∧
      Contains s1 x = (x == x) ∧ Items s1 = [x]) ∧
    (∃ s1, InsertMany (New size) (x :: xs) = .ok (s1, true) ∧
      Contains s1 x = (x == x) ∧ Items s1 = firstOccurrences (x :: xs)) := by
  have hz : OrderedSet.Insert (some (zero : OrderedSet T)) x = .error .nilMapAssign := by
    simp [OrderedSet.Insert, zero, mapIndex, mapAssign]
  have he : mapIndex (some ([] : GoMap T Bool)) x = false := rfl
  refine ⟨hz, ?_, rfl, ?_, ?_⟩
  · simp [InsertMany, insertLoop, hz]
  · refine ⟨_, Insert_absent _ [] x rfl he, ?_, ?_⟩
    · rw [Contains_some, mapIndex_store_beq, he]
      cases x == x <;> rfl
    · simp [Items_some, Slice.append_elems]
  · obtain ⟨st, h1, h2, -, h4⟩ := InsertMany_New_beq size (x :: xs)
    refine ⟨some st, by simpa using h1, ?_, ?_⟩
    · rw [Contains_some, h4]
      cases hx : x == x with
      | true => simp [hx]
      | false =>
        rw [Bool.eq_false_iff]
        intro hany
        rw [any_beq_iff, hx] at hany
        exact Bool.false_ne_true hany.2
    · rw [Items_some, h2]

/-- C13 (amended) at a concrete input: a NaN and the number `1` of `float64`. -/
theorem C13_insert_needs_made_storage_witness :
    OrderedSet.Insert (some (zero : OrderedSet Float64)) Float64.nan = .error .nilMapAssign ∧
    InsertMany (some (zero : OrderedSet Float64)) (Float64.nan :: [Float64.num 1])
      = .error .nilMapAssign ∧
    InsertMany (some (zero : OrderedSet Float64)) [] = .ok (some zero, false) ∧
    (∃ s1, OrderedSet.Insert (New 2) Float64.nan = .ok (s1, true) ∧
      Contains s1 Float64.nan = (Float64.nan == Float64.nan) ∧ Items s1 = [Float64.nan]) ∧
    (∃ s1, InsertMany (New 2) (Float64.nan :: [Float64.num 1]) = .ok (s1, true) ∧
      Contains s1 Float64.nan = (Float64.nan == Float64.nan) ∧
      Items s1 = firstOccurrences (Float64.nan :: [Float64.num 1])) :=
  C13_insert_needs_made_storage Float64.nan [Float64.num 1] 2

end UninitializedBeq

/-! ## InsertMany -/

section InsertManyContract
variable {T : Type} [DecidableEq T]

/-- The loop of `InsertMany` visits the items as successive `Insert` calls do. -/
theorem insertLoop_insertEach (xs : List T) :
    ∀ (s : Option (OrderedSet T)) (b : Bool),
      (insertLoop s xs b).map Prod.fst = insertEach s xs := by
  induction xs with
  | nil => intro s b; rfl
  | cons x xs ih =>
    intro s b
    cases h : OrderedSet.Insert s x with
    | error p => simp [insertLoop, insertEach, h, Except.map]
    | ok r =>
      obtain ⟨s1, inserted⟩ := r
      simp only [insertLoop, insertEach, h]
      exact ih s1 _

/-- When every item is already contained the loop leaves the receiver and the flag. -/
theorem insertLoop_all_present (xs : List T) (st : OrderedSet T) (b : Bool)
    (h : ∀ x ∈ xs, mapIndex st.set x = true) :
    insertLoop (some st) xs b = .ok (some st, b) := by
  induction xs generalizing b with
  | nil => rfl
  | cons x xs ih =>
    have hx := h x (List.mem_cons_self x xs)
    simp only [insertLoop, Insert_present st x hx]
    exact ih _ (fun y hy => h y (List.mem_cons_of_mem x hy))

/-- C14: on an initialized set `InsertMany(xs...)` succeeds; it returns true
iff some element of `xs` was not contained before, which is the case iff the
set changed; and the set it leaves is the one that `Insert` applied to each
element of `xs` in argument order leaves. -/
theorem C14_insert_many_contract (s : Option (OrderedSet T)) (xs : List T)
    (hs : Initialized s = true) :
    ∃ s1 modified, InsertMany s xs = .ok (s1, modified) ∧
      (modified = true ↔ ∃ x ∈ xs, Contains s x = false) ∧
      (modified = true ↔ s1 ≠ s) ∧
      insertEach s xs = .ok s1 := by
  obtain ⟨st, m, rfl, hm⟩ := (Initialized_iff s).1 hs
  obtain ⟨st1, h1, h2, -, -⟩ := insertLoop_initialized xs st m false hm
  have hany : (xs.any fun x => !mapIndex st.set x) = true ↔
      ∃ x ∈ xs, Contains (some st) x = false := by
    simp [List.any_eq_true, Contains_some]
  have heach : insertEach (some st) xs = .ok (some st1) := by
    rw [← insertLoop_insertEach xs (some st) false, h1]
    rfl
  refine ⟨some st1, _, h1, by simpa using hany, ?_, heach⟩
  rw [Bool.false_or]
  constructor
  · intro hmod hst
    obtain ⟨x, hx, hc⟩ := hany.1 hmod
    have hmem : x ∈ firstOccurrences (xs.filter fun x => !mapIndex st.set x) := by
      rw [mem_firstOccurrences, List.mem_filter]
      rw [Contains_some] at hc
      exact ⟨hx, by simp [hc]⟩
    have hlen := congrArg List.length h2
    rw [List.length_append] at hlen
    have hpos := List.length_pos_of_mem hmem
    simp only [Option.some.injEq] at hst
    rw [hst] at hlen
    omega
  · intro hne
    by_contra hmod
    have hall : ∀ x ∈ xs, mapIndex st.set x = true := by
      intro x hx
      by_contra hc
      exact hmod (hany.2 ⟨x, hx, by rw [Contains_some]; simpa using hc⟩)
    have := insertLoop_all_present xs st false hall
    rw [h1] at this
    simp only [Except.ok.injEq, Prod.mk.injEq] at this
    exact hne this.1

/-- C14 at a concrete input: `InsertMany(1, 2, 2)` on the set `From(3, 1)`. -/
theorem C14_insert_many_contract_witness :
    Initialized set31 = true ∧
    ∃ s1 modified, InsertMany set31 [1, 2, 2] = .ok (s1, modified) ∧
      (modified = true ↔ ∃ x ∈ [1, 2, 2], Contains set31 x = false) ∧
      (modified = true ↔ s1 ≠ set31) ∧
      insertEach set31 [1, 2, 2] = .ok s1 :=
  ⟨by decide, C14_insert_many_contract set31 [1, 2, 2] (by decide)⟩

end InsertManyContract

/-! ## The invariant -/

section Invariant
variable {T : Type} [DecidableEq T]

/-- The loop of `InsertMany` keeps the invariant, and appends the items that
were not in the sequence, each once, in the order of their first occurrence. -/
theorem insertLoop_consistent (xs : List T) (st : OrderedSet T) (m : GoMap T Bool) (b : Bool)
    (hm : st.set = some m) (hc : Consistent st) :
    ∃ st1 b1, insertLoop (some st) xs b = .ok (some st1, b1) ∧ Consistent st1 ∧
      st1.items.elems
        = st.items.elems ++
          (firstOccurrences xs).filter (fun y => !decide (y ∈ st.items.elems)) := by
  obtain ⟨hnd, hmem⟩ := hc
  obtain ⟨st1, h1, h2, -, h4⟩ := insertLoop_initialized xs st m b hm
  have hfilter : (xs.filter fun x => !mapIndex st.set x)
      = xs.filter (fun y => !decide (y ∈ st.items.elems)) := by
    apply List.filter_congr
    intro x _
    by_cases hx : x ∈ st.items.elems
    · simp [hx, (hmem x).2 hx]
    · have : mapIndex st.set x = false := by
        cases hv : mapIndex st.set x with
        | true => exact absurd ((hmem x).1 hv) hx
        | false => rfl
      simp [hx, this]
  rw [hfilter, firstOccurrences_filter] at h2
  refine ⟨st1, _, h1, ⟨?_, ?_⟩, h2⟩
  · rw [h2]
    refine List.Nodup.append hnd ((nodup_firstOccurrences xs).filter _) ?_
    intro x hx1 hx2
    rw [List.mem_filter] at hx2
    simp [hx1] at hx2
  · intro x
    rw [h4 x, h2, List.mem_append, List.mem_filter, mem_firstOccurrences]
    by_cases hx : x ∈ st.items.elems
    · simp [hx, (hmem x).2 hx]
    · have : mapIndex st.set x = false := by
        cases hv : mapIndex st.set x with
        | true => exact absurd ((hmem x).1 hv) hx
        | false => rfl
      simp [hx, this]

/-- C18: for a target that satisfies the invariant and whose sequence has a
non-zero capacity, and for a successfully parsed array `ys`, `UnmarshalJSON`
succeeds without an error, the invariant still holds afterwards, and `Items()`
is the previous `Items()` followed by the values of `ys` that were not
present, each once, in the order of their first occurrence in `ys`. -/
theorem C18_decode_into_populated {B E : Type} (json : JSON B E T) (st : OrderedSet T)
    (data : B) (ys : Slice T) (hc : Consistent st) (hcap : st.items.cap ≠ 0)
    (hparse : json.unmarshal data = .ok ys) :
    ∃ st1, UnmarshalJSON json (some st) data = .ok (some st1, none) ∧ Consistent st1 ∧
      Items (some st1)
        = Items (some st) ++
          (firstOccurrences ys.elems).filter (fun y => !decide (y ∈ Items (some st))) := by
  have hset : ∃ m, (if st.set.isNone then some [] else st.set) = some m := by
    cases h : st.set with
    | none => exact ⟨[], by simp⟩
    | some m => exact ⟨m, by simp⟩
  obtain ⟨m, hm⟩ := hset
  have hidx : ∀ x, mapIndex (if st.set.isNone then some [] else st.set) x = mapIndex st.set x := by
    intro x
    cases h : st.set with
    | none => rfl
    | some m => simp
  have hc0 : Consistent { set := if st.set.isNone then some [] else st.set, items := st.items } :=
    ⟨hc.1, fun x => by rw [hidx x]; exact hc.2 x⟩
  obtain ⟨st1, b1, h1, hc1, h2⟩ := insertLoop_consistent ys.elems _ m false hm hc0
  refine ⟨st1, ?_, hc1, by rw [Items_some, Items_some]; exact h2⟩
  simp only [UnmarshalJSON, hparse, hcap, if_false, InsertMany, h1]

/-- C18 at a concrete input: decoding `[2, 1, 5, 2]` into the set `From(3, 1, 2)`. -/
theorem C18_decode_into_populated_witness :
    (Consistent (⟨some [(3, true), (1, true), (2, true)], ⟨[3, 1, 2], 3⟩⟩ : OrderedSet Nat) ∧
      (3 : Nat) ≠ 0 ∧
      (listJSON Nat).unmarshal [2, 1, 5, 2] = .ok ⟨[2, 1, 5, 2], 4⟩) ∧
    ∃ st1, UnmarshalJSON (listJSON Nat) set312 [2, 1, 5, 2] = .ok (some st1, none) ∧
      Consistent st1 ∧
      Items (some st1)
        = Items set312 ++
          (firstOccurrences [2, 1, 5, 2]).filter (fun y => !decide (y ∈ Items set312)) :=
  have hc : Consistent (⟨some [(3, true), (1, true), (2, true)], ⟨[3, 1, 2], 3⟩⟩ : OrderedSet Nat) :=
    ⟨by decide, fun x => by
      simp only [mapIndex, GoMap.lookup]
      by_cases h3 : 3 = x
      · subst h3; simp
      · by_cases h1 : 1 = x
        · subst h1; simp
        · by_cases h2 : 2 = x
          · subst h2; simp
          · have e3 : ¬ x = 3 := fun e => h3 e.symm
            have e1 : ¬ x = 1 := fun e => h1 e.symm
            have e2 : ¬ x = 2 := fun e => h2 e.symm
            simp [h3, h1, h2, e3, e1, e2]⟩
  ⟨⟨hc, by decide, rfl⟩,
    C18_decode_into_populated (listJSON Nat) _ [2, 1, 5, 2] ⟨[2, 1, 5, 2], 4⟩ hc
      (by decide) rfl⟩

/-- The scenario of C18: decoding `[2, 1, 5, 2]` into `From(3, 1, 2)` gives
`Items() = [3, 1, 2, 5]`. -/
theorem scenario_decode_into_312 :
    (UnmarshalJSON (listJSON Nat) set312 [2, 1, 5, 2]).map (fun r => Items r.1)
      = .ok [3, 1, 2, 5] := by
  decide

end Invariant

section InsertOnlyInvariant
variable {T : Type} [BEq T]

/-- Every state reached by inserts only is built from `New` by `Insert` and
`InsertMany`: `From` and `Collect` start from `New`, and `InsertSeq` runs the
loop of `InsertMany`. -/
theorem insertOnly_insertBuilt {s : Option (OrderedSet T)} (h : InsertOnly s) :
    InsertBuilt s := by
  induction h with
  | new size => exact InsertBuilt.new size
  | @fromItems s items hfrom =>
    unfold From at hfrom
    cases hm : InsertMany (New (items.length : Int)) items with
    | error p => rw [hm] at hfrom; cases hfrom
    | ok r =>
      obtain ⟨s1, b⟩ := r
      rw [hm] at hfrom
      cases hfrom
      exact InsertBuilt.insertMany items (InsertBuilt.new _) hm
  | @collect s seq hcol =>
    unfold Collect at hcol
    cases hm : InsertSeq (New 0) seq with
    | error p => rw [hm] at hcol; cases hcol
    | ok r =>
      obtain ⟨s1, b⟩ := r
      rw [hm] at hcol
      cases hcol
      exact InsertBuilt.insertMany seq (InsertBuilt.new 0) hm
  | insert item _ hins ih => exact InsertBuilt.insert item ih hins
  | insertMany items _ hins ih => exact InsertBuilt.insertMany items ih hins
  | insertSeq seq _ hins ih => exact InsertBuilt.insertMany seq ih hins

variable [Comparable T]

/-- C19 (the claim fails): after `New(0)` and two `Insert(NaN)` on a set of
`float64`, a state reached by inserts only, `Items()` holds the NaN twice,
`Size()` is `2` and `Contains(NaN)` is false. -/
theorem C19_nan_inserted_twice :
    ((OrderedSet.Insert (New 0) Float64.nan).bind fun r =>
        OrderedSet.Insert r.1 Float64.nan).map
        (fun r => (Items r.1, Size r.1, Contains r.1 Float64.nan))
      = .ok ([Float64.nan, Float64.nan], 2, false) :=
  rfl

/-- C19 (amended): in every state reached from `New` (any size), `From` or
`Collect` by `Insert`, `InsertMany` and `InsertSeq` only, the set is a non-nil
pointer, the sequence holds no two items that are `==`, and `Contains(x)` is
true iff `x` occurs in `Items()` and `x == x`; when every item of the sequence
is equal to itself, the sequence has no duplicates, `Contains(x)` is true iff
`x` occurs in `Items()`, and `Size()` is the number of items `x` with
`Contains(x)` true. -/
theorem C19_insert_only_invariant (s : Option (OrderedSet T)) (h : InsertOnly s) :
    s ≠ none ∧ Distinct (Items s) ∧
    (∀ x, Contains s x = true ↔ x ∈ Items s ∧ (x == x) = true) ∧
    (SelfEqual (Items s) →
      (Items s).Nodup ∧ (∀ x, Contains s x = true ↔ x ∈ Items s) ∧
      ∃ present : Finset T,
        (∀ x, x ∈ present ↔ Contains s x = true) ∧ present.card = Size s) := by
  obtain ⟨st, m, rfl, -, hd, hmem⟩ := insertBuilt_tracks (insertOnly_insertBuilt h)
  refine ⟨by simp, hd, hmem, ?_⟩
  intro hself
  have hnd : st.items.elems.Nodup := (distinct_iff_nodup _ hself).1 hd
  have hiff : ∀ x, Contains (some st) x = true ↔ x ∈ Items (some st) := by
    intro x
    rw [Contains_some, hmem x]
    exact ⟨fun h1 => h1.1, fun h1 => ⟨h1, hself x h1⟩⟩
  refine ⟨hnd, hiff, ⟨⟨st.items.elems, hnd⟩, ?_, rfl⟩⟩
  intro x
  rw [hiff x]
  rfl

/-- C19 (amended) at a concrete input: the set of `float64` after `New(0)` and
two `Insert(NaN)`. -/
theorem C19_insert_only_invariant_witness :
    InsertOnly nanTwice ∧
      (nanTwice ≠ none ∧ Distinct (Items nanTwice) ∧
        (∀ x, Contains nanTwice x = true ↔ x ∈ Items nanTwice ∧ (x == x) = true) ∧
        (SelfEqual (Items nanTwice) →
          (Items nanTwice).Nodup ∧ (∀ x, Contains nanTwice x = true ↔ x ∈ Items nanTwice) ∧
          ∃ present : Finset Float64,
            (∀ x, x ∈ present ↔ Contains nanTwice x = true) ∧
              present.card = Size nanTwice)) :=
  have hb : InsertOnly nanTwice :=
    InsertOnly.insertMany [Float64.nan, Float64.nan] (InsertOnly.new 0)
      (rfl : InsertMany (New 0) [Float64.nan, Float64.nan] = .ok (nanTwice, true))
  ⟨hb, C19_insert_only_invariant nanTwice hb⟩

/-- Instances of C19: `New` with a negative size, `Collect`, and `InsertSeq`
after `From`, on lists with repeated items. -/
theorem scenario_insert_only :
    (InsertMany (New (-5)) [2, 2, 1]).map (fun r => (Items r.1, Size r.1)) = .ok ([2, 1], 2) ∧
    (Collect [4, 4, 4]).map (fun s => (Items s, Size s)) = .ok ([4], 1) ∧
    ((From [1, 2]).bind fun s => InsertSeq s [2, 3, 1, 3]).map (fun r => (Items r.1, Size r.1))
      = .ok ([1, 2, 3], 3) := by
  decide

end InsertOnlyInvariant

/-! ## A failed decode -/

section FailedDecode
variable {T : Type} [DecidableEq T]

/-- C11: when parsing the element array fails, `OrderedSet.UnmarshalJSON`
returns the parse error and leaves the target, nil or not, as it was before
the call; so does `Set.UnmarshalJSON`. -/
theorem C11_failed_decode_keeps_target {B E : Type} (json : JSON B E T) (data : B) (err : E)
    (s : Option (OrderedSet T)) (u : Option (Set T))
    (hparse : json.unmarshal data = .error err) :
    OrderedSet.UnmarshalJSON json s data = .ok (s, some err) ∧
    Set.UnmarshalJSON json u data = .ok (u, some err) := by
  constructor
  · simp [OrderedSet.UnmarshalJSON, hparse]
  · simp [Set.UnmarshalJSON, hparse]

/-- C11 at a concrete input: an input that does not parse, decoded into the
ordered set `From(3, 1, 2)` and into the set with the keys `3` and `1`. -/
theorem C11_failed_decode_keeps_target_witness :
    (optionJSON Nat).unmarshal none = .error () ∧
    OrderedSet.UnmarshalJSON (optionJSON Nat) set312 none = .ok (set312, some ()) ∧
    Set.UnmarshalJSON (optionJSON Nat) (some ⟨some [(3, true), (1, true)]⟩) none
      = .ok (some ⟨some [(3, true), (1, true)]⟩, some ()) :=
  ⟨rfl, C11_failed_decode_keeps_target (optionJSON Nat) none () set312
    (some ⟨some [(3, true), (1, true)]⟩) rfl⟩

end FailedDecode

/-! ## The set -/

section SetKeys
variable {K V : Type} [BEq K] [Comparable K]

theorem GoMap.keys_store (m : GoMap K V) (k : K) (v : V) :
    (m.store k v).keys = if m.keys.any (fun k0 => k0 == k) then m.keys else m.keys ++ [k] := by
  induction m with
  | nil => simp [GoMap.store, GoMap.keys]
  | cons e rest ih =>
    obtain ⟨k0, v0⟩ := e
    simp only [GoMap.keys, List.map_cons, List.any_cons] at ih ⊢
    cases h0 : k0 == k with
    | true =>
      have e0 : k0 = k := Comparable.eq_of_beq h0
      subst e0
      simp [GoMap.store, h0]
    | false =>
      simp only [GoMap.store, h0, Bool.false_eq_true, if_false, List.map_cons, ih, Bool.false_or]
      split <;> simp

theorem GoMap.distinct_store (m : GoMap K V) (k : K) (v : V) (h : Distinct m.keys) :
    Distinct (m.store k v).keys := by
  rw [GoMap.keys_store]
  split
  · exact h
  · next hk =>
    refine List.pairwise_append.2 ⟨h, List.pairwise_singleton _ _, ?_⟩
    intro y hy z hz
    rw [List.mem_singleton] at hz
    subst hz
    cases hyz : y == z with
    | false => rfl
    | true => exact absurd (List.any_eq_true.2 ⟨y, hy, hyz⟩) hk

end SetKeys

section SetInvariant
variable {T : Type} [BEq T]

theorem GoMap.distinct_remove {V : Type} (m : GoMap T V) (k : T) (h : Distinct m.keys) :
    Distinct (m.remove k).keys :=
  List.Pairwise.sublist ((GoMap.remove_sublist m k).map Prod.fst) h

theorem Set.invariant_New (size : Int) : (Set.New size : Set T).Invariant :=
  ⟨[], rfl, List.Pairwise.nil, fun _ h => by cases h⟩

theorem Set.invariant_Clear (s : Set T) (h : s.Invariant) : (Set.Clear s).Invariant := by
  obtain ⟨m, hm, -, -⟩ := h
  exact ⟨[], by simp [Set.Clear, hm, mapClear], List.Pairwise.nil, fun _ h => by cases h⟩

theorem Set.invariant_Delete (s : Set T) (h : s.Invariant) (x : T) :
    (Set.Delete s x).Invariant := by
  obtain ⟨m, hm, hd, htrue⟩ := h
  refine ⟨m.remove x, by simp [Set.Delete, hm, mapDelete], GoMap.distinct_remove m x hd, ?_⟩
  intro e he
  exact htrue e ((GoMap.remove_sublist m x).subset he)

variable [Comparable T]

/-- Under the invariant `Contains(x)` is true iff `x` is a key of the map and
is equal to itself. -/
theorem Set.contains_iff_key (s : Set T) (h : s.Invariant) (x : T) :
    Set.Contains s x = true ↔ x ∈ mapKeys s.set ∧ (x == x) = true := by
  obtain ⟨m, hm, -, htrue⟩ := h
  simp only [Set.Contains, hm, mapIndex, mapKeys]
  rw [← GoMap.lookup_isSome]
  cases hl : m.lookup x with
  | none => simp
  | some v =>
    have := htrue _ (GoMap.lookup_mem m x v hl)
    simp only at this
    simp [this]

/-- The loop of `InsertMany` keeps the invariant and appends to the keys the
first occurrences of the items that are `==` to no key. -/
theorem Set.invariant_insertLoop (xs : List T) :
    ∀ s : Set T, s.Invariant →
      ∃ s1, Set.insertLoop s xs = .ok s1 ∧ s1.Invariant ∧
        mapKeys s1.set = mapKeys s.set ++
          firstOccurrences (xs.filter fun x => !(mapKeys s.set).any (fun k => k == x)) := by
  induction xs with
  | nil =>
    intro s h
    exact ⟨s, rfl, h, by simp [firstOccurrences]⟩
  | cons x xs ih =>
    intro s h
    obtain ⟨m, hm, hd, htrue⟩ := id h
    have hinv1 : ({ set := some (m.store x true) } : Set T).Invariant := by
      refine ⟨_, rfl, GoMap.distinct_store m x true hd, ?_⟩
      intro e he
      rcases GoMap.mem_store m x true e he with h1 | h1
      · rw [h1]
      · exact htrue e h1
    obtain ⟨s2, h2, hinv2, hk2⟩ := ih _ hinv1
    refine ⟨s2, by simp [Set.insertLoop, Set.Insert, hm, mapAssign, h2], hinv2, ?_⟩
    rw [hk2]
    simp only [mapKeys, hm, GoMap.keys_store]
    cases hany : m.keys.any (fun k0 => k0 == x) with
    | true => simp [hany]
    | false =>
      simp only [Bool.false_eq_true, if_false, List.filter_cons, hany, Bool.not_false, if_true,
        firstOccurrences, List.append_assoc, List.singleton_append]
      rw [← firstOccurrences_filter_beq, List.filter_filter]
      congr 3
      apply List.filter_congr
      intro y _
      rw [List.any_append, List.any_cons, List.any_nil, Bool.or_false, Comparable.beq_comm x y]
      cases hy : y == x <;> simp [bne, hy]

/-- Every reachable state satisfies the invariant. -/
theorem Set.reachable_invariant {s : Set T} (h : Set.Reachable s) : s.Invariant := by
  induction h with
  | new size => exact Set.invariant_New size
  | @fromItems s items hfrom =>
    obtain ⟨s1, h1, hinv, -⟩ := Set.invariant_insertLoop items _ (Set.invariant_New items.length)
    rw [Set.From, Set.InsertMany, h1] at hfrom
    cases hfrom
    exact hinv
  | @collect s seq hcol =>
    obtain ⟨s1, h1, hinv, -⟩ := Set.invariant_insertLoop seq _ (Set.invariant_New 0)
    rw [Set.Collect, Set.InsertSeq, h1] at hcol
    cases hcol
    exact hinv
  | @insert s s1 item _ hins ih =>
    obtain ⟨s2, h2, hinv, -⟩ := Set.invariant_insertLoop [item] s ih
    have hrun : Set.insertLoop s [item] = .ok s1 := by
      simp only [Set.insertLoop, hins]
    rw [h2] at hrun
    cases hrun
    exact hinv
  | @insertMany s s1 items _ hins ih =>
    obtain ⟨s2, h2, hinv, -⟩ := Set.invariant_insertLoop items s ih
    rw [Set.InsertMany, h2] at hins
    cases hins
    exact hinv
  | @insertSeq s s1 seq _ hins ih =>
    obtain ⟨s2, h2, hinv, -⟩ := Set.invariant_insertLoop seq s ih
    rw [Set.InsertSeq, h2] at hins
    cases hins
    exact hinv
  | delete item _ ih => exact Set.invariant_Delete _ ih item
  | clear _ ih => exact Set.invariant_Clear _ ih
  | @unmarshalJSON B E s s1 err json data _ hdec ih =>
    unfold Set.UnmarshalJSON at hdec
    cases hp : json.unmarshal data with
    | error e =>
      rw [hp] at hdec
      simp only [Except.ok.injEq, Prod.mk.injEq, Option.some.injEq] at hdec
      rw [← hdec.1]
      exact ih
    | ok items =>
      obtain ⟨m, hm, -, -⟩ := id ih
      have hs : ({ set := if s.set.isNone then some [] else s.set } : Set T) = s := by
        cases s
        simp only at hm
        simp [hm]
      obtain ⟨s2, h2, hinv, -⟩ := Set.invariant_insertLoop items.elems s ih
      rw [hp] at hdec
      simp only [hs, Set.InsertMany, h2, Except.ok.injEq, Prod.mk.injEq,
        Option.some.injEq] at hdec
      rw [← hdec.1]
      exact hinv

end SetInvariant

section SetEqual
variable {T : Type} [BEq T]

theorem Set.equalLoop_iff (other : Set T) (keys : List T) :
    Set.equalLoop other keys = true ↔ ∀ k ∈ keys, mapIndex other.set k = true := by
  induction keys with
  | nil => simp [Set.equalLoop]
  | cons k rest ih =>
    cases hk : mapIndex other.set k with
    | true => simp [Set.equalLoop, hk, ih]
    | false => simp [Set.equalLoop, hk]

variable [Comparable T]

/-- Under the invariant `Equal` is true iff neither set holds a key that is not
equal to itself and the two sets contain the same items. -/
theorem Set.Equal_iff (a b : Set T) (ha : a.Invariant) (hb : b.Invariant) :
    Set.Equal a b = true ↔
      SelfEqual (Set.Items a) ∧ SelfEqual (Set.Items b) ∧
        ∀ x, Set.Contains a x = Set.Contains b x := by
  have hka := Set.contains_iff_key a ha
  have hkb := Set.contains_iff_key b hb
  obtain ⟨ma, hma, hda, -⟩ := ha
  obtain ⟨mb, hmb, hdb, -⟩ := hb
  have hla : mapLen a.set = (mapKeys a.set).length := by simp [mapLen, mapKeys, hma, GoMap.keys]
  have hlb : mapLen b.set = (mapKeys b.set).length := by simp [mapLen, mapKeys, hmb, GoMap.keys]
  have hda1 : Distinct (mapKeys a.set) := by simpa [mapKeys, hma] using hda
  have hdb1 : Distinct (mapKeys b.set) := by simpa [mapKeys, hmb] using hdb
  constructor
  · intro heq
    unfold Set.Equal at heq
    by_cases hlen : mapLen a.set = mapLen b.set
    · simp only [hlen, ne_eq, not_true_eq_false, if_false] at heq
      have hfound : ∀ k ∈ mapKeys a.set, k ∈ mapKeys b.set ∧ (k == k) = true :=
        fun k hk => (hkb k).1 ((Set.equalLoop_iff b _).1 heq k hk)
      have hsa : SelfEqual (mapKeys a.set) := fun k hk => (hfound k hk).2
      have hnda : (mapKeys a.set).Nodup := (distinct_iff_nodup _ hsa).1 hda1
      have hperm : (mapKeys a.set).Perm (mapKeys b.set) :=
        (hnda.subperm (fun k hk => (hfound k hk).1)).perm_of_length_le
          (by rw [← hla, ← hlb, hlen])
      have hsb : SelfEqual (mapKeys b.set) := fun k hk => hsa k (hperm.mem_iff.2 hk)
      refine ⟨hsa, hsb, ?_⟩
      intro x
      have hiff : Set.Contains a x = true ↔ Set.Contains b x = true := by
        rw [hka, hkb, hperm.mem_iff]
      cases hca : Set.Contains a x <;> cases hcb : Set.Contains b x <;> simp_all
    · simp [hlen] at heq
  · rintro ⟨hsa, hsb, hsame⟩
    have hmem : ∀ x, x ∈ mapKeys a.set ↔ x ∈ mapKeys b.set := by
      intro x
      constructor
      · intro hx
        exact ((hkb x).1 ((hsame x) ▸ (hka x).2 ⟨hx, hsa x hx⟩)).1
      · intro hx
        exact ((hka x).1 ((hsame x).symm ▸ (hkb x).2 ⟨hx, hsb x hx⟩)).1
    have hperm : (mapKeys a.set).Perm (mapKeys b.set) :=
      (List.perm_ext_iff_of_nodup ((distinct_iff_nodup _ hsa).1 hda1)
        ((distinct_iff_nodup _ hsb).1 hdb1)).2 hmem
    have hlen : mapLen a.set = mapLen b.set := by rw [hla, hlb, hperm.length_eq]
    unfold Set.Equal
    simp only [hlen, ne_eq, not_true_eq_false, if_false]
    rw [Set.equalLoop_iff]
    intro k hk
    exact (hkb k).2 ⟨(hmem k).1 hk, hsa k hk⟩

/-- C15 (the claim fails): the set of `float64` that holds a NaN is not `Equal`
to itself. -/
theorem C15_set_equal_not_reflexive_at_nan :
    (Set.From [Float64.nan]).map (fun s => Set.Equal s s) = .ok false := by
  decide

/-- An instance of C15: `From(1,2,3)` and `From(3,2,1)`, as values, are `Equal`
in both directions. -/
theorem scenario_set_equal_321 :
    Set.Equal plain123 plain321 = true ∧ Set.Equal plain321 plain123 = true := by
  decide

/-- C15 (amended): for reachable sets `a` and `b`, `a.Equal(b)` is true iff
neither `a` nor `b` holds an item that is not equal to itself and `a` and `b`
contain the same items; hence `Equal` is symmetric, `a.Equal(a)` is true iff
every item of `a` is equal to itself, and `From(1,2,3).Equal(From(3,2,1))` is
true. -/
theorem C15_set_equal_is_membership (a b : Set T) (ha : Set.Reachable a)
    (hb : Set.Reachable b) :
    (Set.Equal a b = true ↔
      SelfEqual (Set.Items a) ∧ SelfEqual (Set.Items b) ∧
        ∀ x, Set.Contains a x = Set.Contains b x) ∧
    (Set.Equal a a = true ↔ SelfEqual (Set.Items a)) ∧
    Set.Equal b a = Set.Equal a b ∧
    ((Set.From [1, 2, 3]).bind fun s => (Set.From [3, 2, 1]).map fun t => Set.Equal s t)
      = .ok true := by
  have hia := Set.reachable_invariant ha
  have hib := Set.reachable_invariant hb
  have h1 := Set.Equal_iff a b hia hib
  have h2 := Set.Equal_iff b a hib hia
  refine ⟨h1, ?_, ?_, by decide⟩
  · rw [Set.Equal_iff a a hia hia]
    exact ⟨fun h => h.1, fun h => ⟨h, h, fun _ => rfl⟩⟩
  · rw [Bool.eq_iff_iff, h1, h2]
    exact ⟨fun ⟨p, q, r⟩ => ⟨q, p, fun x => (r x).symm⟩,
      fun ⟨p, q, r⟩ => ⟨q, p, fun x => (r x).symm⟩⟩

/-- C15 (amended) at a concrete input: the set of `float64` that holds a NaN,
against itself. -/
theorem C15_set_equal_is_membership_witness :
    Set.Reachable plainNan ∧
    ((Set.Equal plainNan plainNan = true ↔
      SelfEqual (Set.Items plainNan) ∧ SelfEqual (Set.Items plainNan) ∧
        ∀ x, Set.Contains plainNan x = Set.Contains plainNan x) ∧
    (Set.Equal plainNan plainNan = true ↔ SelfEqual (Set.Items plainNan)) ∧
    Set.Equal plainNan plainNan = Set.Equal plainNan plainNan ∧
    ((Set.From [1, 2, 3]).bind fun s => (Set.From [3, 2, 1]).map fun t => Set.Equal s t)
      = .ok true) :=
  have h1 : Set.Reachable plainNan := Set.Reachable.fromItems [Float64.nan] rfl
  ⟨h1, C15_set_equal_is_membership plainNan plainNan h1 h1⟩

end SetEqual

section SetRepresentation
variable {T : Type} [BEq T] [Comparable T]

/-- The keys of `From(xs...)` are the first occurrences of `xs`. -/
theorem Set.From_keys (xs : List T) :
    ∃ s, Set.From xs = .ok s ∧ Set.Reachable s ∧ Set.Items s = firstOccurrences xs := by
  obtain ⟨s, h1, -, hk⟩ := Set.invariant_insertLoop xs _ (Set.invariant_New xs.length)
  have hfrom : Set.From xs = .ok s := h1
  refine ⟨s, hfrom, Set.Reachable.fromItems xs hfrom, ?_⟩
  simpa [Set.Items, mapKeys, Set.New, GoMap.keys] using hk

/-- C20 (the claim fails): after `From(NaN, NaN)` the map holds the key NaN
twice, `Contains(NaN)` is false and `Size()` is 2. -/
theorem C20_nan_key_not_contained :
    (Set.From [Float64.nan, Float64.nan]).map
        (fun s => (Set.Items s, Set.Contains s Float64.nan, Set.Size s))
      = .ok ([Float64.nan, Float64.nan], false, 2) :=
  rfl

/-- C20 (amended): in every reachable state the map has been made and every
key stored in it has the value `true`; no two keys are `==`; `Contains(x)` is
true iff `x` is a key of the map and is equal to itself; `Size()` is the number
of keys, which `Items()` lists; when every key is equal to itself, `Size()` is
the number of items `x` with `Contains(x)` true and `Items()` lists exactly
those items, each once.  `From(xs...)` succeeds with a `Size()` that is the
number of first occurrences in `xs`, which is the number of distinct values of
`xs` when every item of `xs` is equal to itself. -/
theorem C20_set_representation (s : Set T) (h : Set.Reachable s) (xs : List T) :
    (∃ m, s.set = some m ∧ ∀ e ∈ m, e.2 = true) ∧
    Distinct (Set.Items s) ∧
    (∀ x, Set.Contains s x = true ↔ x ∈ mapKeys s.set ∧ (x == x) = true) ∧
    Set.Size s = (Set.Items s).length ∧
    (SelfEqual (Set.Items s) →
      (∃ present : Finset T,
        (∀ x, x ∈ present ↔ Set.Contains s x = true) ∧ present.card = Set.Size s) ∧
      (Set.Items s).Nodup ∧
      (∀ x, x ∈ Set.Items s ↔ Set.Contains s x = true)) ∧
    ∃ t, Set.From xs = .ok t ∧ Set.Size t = (firstOccurrences xs).length ∧
      (SelfEqual xs →
        ∃ distinct : Finset T, (∀ x, x ∈ distinct ↔ x ∈ xs) ∧ distinct.card = Set.Size t) := by
  have hinv := Set.reachable_invariant h
  have hk := Set.contains_iff_key s hinv
  obtain ⟨m, hm, hd, htrue⟩ := hinv
  have hd1 : Distinct (Set.Items s) := by simpa [Set.Items, mapKeys, hm] using hd
  have hsize : ∀ u : Set T, u.set ≠ none → Set.Size u = (Set.Items u).length := by
    intro u hu
    obtain ⟨mu, hmu⟩ := Option.ne_none_iff_exists'.1 hu
    simp [Set.Size, Set.Items, mapLen, mapKeys, hmu, GoMap.keys]
  refine ⟨⟨m, hm, htrue⟩, hd1, hk, hsize s (by simp [hm]), ?_, ?_⟩
  · intro hs
    have hnd : (Set.Items s).Nodup := (distinct_iff_nodup _ hs).1 hd1
    have hmem : ∀ x, x ∈ Set.Items s ↔ Set.Contains s x = true := by
      intro x
      rw [hk x]
      exact ⟨fun hx => ⟨hx, hs x hx⟩, fun hx => hx.1⟩
    exact ⟨⟨⟨Set.Items s, hnd⟩, fun x => hmem x, (hsize s (by simp [hm])).symm⟩, hnd, hmem⟩
  · obtain ⟨t, h1, h2, h3⟩ := Set.From_keys xs
    obtain ⟨mt, hmt, -, -⟩ := Set.reachable_invariant h2
    have hst : Set.Size t = (firstOccurrences xs).length := by
      rw [hsize t (by simp [hmt]), h3]
    refine ⟨t, h1, hst, ?_⟩
    intro hs
    have hs1 : SelfEqual (firstOccurrences xs) :=
      fun x hx => hs x ((mem_firstOccurrences_beq xs x).1 hx)
    have hnd : (firstOccurrences xs).Nodup :=
      (distinct_iff_nodup _ hs1).1 (distinct_firstOccurrences xs)
    exact ⟨⟨firstOccurrences xs, hnd⟩, fun x => mem_firstOccurrences_beq xs x, hst.symm⟩

/-- C20 (amended) at a concrete input: the set of `float64` that holds a NaN,
and `From(NaN, 1, NaN)`. -/
theorem C20_set_representation_witness :
    Set.Reachable plainNan ∧
    ((∃ m, plainNan.set = some m ∧ ∀ e ∈ m, e.2 = true) ∧
    Distinct (Set.Items plainNan) ∧
    (∀ x, Set.Contains plainNan x = true ↔ x ∈ mapKeys plainNan.set ∧ (x == x) = true) ∧
    Set.Size plainNan = (Set.Items plainNan).length ∧
    (SelfEqual (Set.Items plainNan) →
      (∃ present : Finset Float64,
        (∀ x, x ∈ present ↔ Set.Contains plainNan x = true) ∧
          present.card = Set.Size plainNan) ∧
      (Set.Items plainNan).Nodup ∧
      (∀ x, x ∈ Set.Items plainNan ↔ Set.Contains plainNan x = true)) ∧
    ∃ t, Set.From [Float64.nan, Float64.num 1, Float64.nan] = .ok t ∧
      Set.Size t = (firstOccurrences [Float64.nan, Float64.num 1, Float64.nan]).length ∧
      (SelfEqual [Float64.nan, Float64.num 1, Float64.nan] →
        ∃ distinct : Finset Float64,
          (∀ x, x ∈ distinct ↔ x ∈ [Float64.nan, Float64.num 1, Float64.nan]) ∧
            distinct.card = Set.Size t)) :=
  have h1 : Set.Reachable plainNan := Set.Reachable.fromItems [Float64.nan] rfl
  ⟨h1, C20_set_representation plainNan h1 [Float64.nan, Float64.num 1, Float64.nan]⟩

/-- Instances of C20: after `Delete`, `Clear` and a decode the map of a set
still holds each key once with the value `true`. -/
theorem scenario_set_states :
    (Set.From [1, 2, 1, 3]).map (fun s => (Set.Items (Set.Delete s 2), Set.Size (Set.Delete s 2)))
      = .ok ([1, 3], 2) ∧
    (Set.From [1, 2]).map (fun s => (Set.Items (Set.Clear s), Set.Size (Set.Clear s)))
      = .ok ([], 0) ∧
    (Set.UnmarshalJSON (listJSON Nat) (some plain123) [3, 4, 4]).map (fun r => r.1.map Set.Items)
      = .ok (some [1, 2, 3, 4]) := by
  decide

end SetRepresentation

/-! ## The type map -/

section TypeMapLemmas
variable {Ty Val : Type} [DecidableEq Ty]

/-- A value that passes `HasType` and is not nil passes the type assertion. -/
theorem TypeMap.typeAssert_of_hasType (G : TypeMap.Types Ty Val) (T D : Ty) (v : Val)
    (h : G.HasType T (some (D, v)) = true) : G.typeAssert T (some (D, v)) = .ok (some (D, v)) := by
  simp only [TypeMap.Types.HasType, Bool.and_eq_true] at h
  simp only [TypeMap.Types.typeAssert, h.2, if_true]

/-- After `Insert[T](m, v)` with a value `v` of type `T` that is not a nil
interface value, `Lookup[T]` is `(v, true)`, `Get[T]` is `v`, `Contains[T]` is
true, and `Lookup[U]` is unchanged for every other type `U`. -/
theorem TypeMap.read_after_Insert (G : TypeMap.Types Ty Val) (T : Ty) (m : TypeMap.Map Ty Val)
    (D : Ty) (v : Val) (hm : m.m ≠ none) (ht : G.HasType T (some (D, v)) = true) :
    ∃ m1, TypeMap.Insert T m (some (D, v)) = .ok m1 ∧
      TypeMap.Lookup G T m1 = .ok (some (D, v), true) ∧
      TypeMap.Get G T m1 = .ok (some (D, v)) ∧
      TypeMap.Contains T m1 = true ∧
      ∀ U, U ≠ T → TypeMap.Lookup G U m1 = TypeMap.Lookup G U m ∧
        TypeMap.Get G U m1 = TypeMap.Get G U m := by
  obtain ⟨mm, hmm⟩ := Option.ne_none_iff_exists'.1 hm
  have hassert := TypeMap.typeAssert_of_hasType G T D v ht
  refine ⟨{ m := some (mm.store (some T) (some (D, v))) }, ?_, ?_, ?_, ?_, ?_⟩
  · simp [TypeMap.Insert, hmm, mapAssign]
  · simp [TypeMap.Lookup, mapFind_store, hassert]
  · simp [TypeMap.Get, mapFind_store, hassert]
  · simp [TypeMap.Contains, mapFind_store]
  · intro U hU
    have hne : ¬ T = U := fun e => hU e.symm
    simp [TypeMap.Lookup, TypeMap.Get, mapFind_store, hne, hmm]

/-- For a type with no entry `Lookup` returns the zero value and false, and
`Get` the zero value. -/
theorem TypeMap.read_absent (G : TypeMap.Types Ty Val) (T : Ty) (m : TypeMap.Map Ty Val)
    (h : TypeMap.Contains T m = false) :
    TypeMap.Lookup G T m = .ok (G.zeroValue T, false) ∧ TypeMap.Get G T m = .ok (G.zeroValue T) := by
  cases hf : mapFind m.m (some T) with
  | none => simp [TypeMap.Lookup, TypeMap.Get, hf]
  | some item => simp [TypeMap.Contains, hf] at h

/-- After `Insert[T](m, nil)` for an interface type `T`, the key is present and
`Get[T]` and `Lookup[T]` fail in the type assertion on the stored nil. -/
theorem TypeMap.read_after_Insert_nil (G : TypeMap.Types Ty Val) (T : Ty)
    (m : TypeMap.Map Ty Val) (hm : m.m ≠ none) :
    ∃ m1, TypeMap.Insert T m none = .ok m1 ∧ TypeMap.Contains T m1 = true ∧
      TypeMap.Get G T m1 = .error .typeAssertion ∧
      TypeMap.Lookup G T m1 = .error .typeAssertion := by
  obtain ⟨mm, hmm⟩ := Option.ne_none_iff_exists'.1 hm
  refine ⟨{ m := some (mm.store (some T) none) }, ?_, ?_, ?_, ?_⟩
  · simp [TypeMap.Insert, hmm, mapAssign]
  · simp [TypeMap.Contains, mapFind_store]
  · simp [TypeMap.Get, mapFind_store, TypeMap.Types.typeAssert]
  · simp [TypeMap.Lookup, mapFind_store, TypeMap.Types.typeAssert]

/-- The scenario of C16: after `Insert[int](5)` and `Insert[string]("a")`,
`Get[int]()` is `5` and `Lookup[float64]()` is `(0, false)`. -/
theorem scenario_typemap :
    ((TypeMap.Insert TypeMap.GoType.int TypeMap.New (some (.int, .int 5))).bind fun m =>
      (TypeMap.Insert TypeMap.GoType.string m (some (.string, .string "a"))).bind fun m1 =>
        (TypeMap.Get TypeMap.goTypes .int m1).bind fun v =>
          (TypeMap.Lookup TypeMap.goTypes .float64 m1).map fun r => (v, r))
      = .ok (some (.int, .int 5), some (.float64, .float64 0), false) := by
  decide

/-- C16 (the code at the failing input): the nil `error` is a value of the
interface type `error`; after `Insert[error](m, nil)` on a new map,
`Contains[error]` is true and `Lookup[error]` and `Get[error]` fail in the
type assertion instead of returning `(nil, true)` and `nil`. -/
theorem C16_read_after_insert_nil_error_at_new :
    TypeMap.goTypes.HasType .error none = true ∧
    ((TypeMap.Insert .error (TypeMap.New : TypeMap.Map TypeMap.GoType TypeMap.GoValue) none).map
        (TypeMap.Contains .error)) = .ok true ∧
    ((TypeMap.Insert .error (TypeMap.New : TypeMap.Map TypeMap.GoType TypeMap.GoValue) none).bind
        (TypeMap.Lookup TypeMap.goTypes .error)) = .error .typeAssertion ∧
    ((TypeMap.Insert .error (TypeMap.New : TypeMap.Map TypeMap.GoType TypeMap.GoValue) none).bind
        (TypeMap.Get TypeMap.goTypes .error)) = .error .typeAssertion := by
  decide

end TypeMapLemmas

section TypeMapReads
variable {Ty Val : Type} [DecidableEq Ty]

/-- In every reachable state the map has been made and the value stored under
a type key is the conversion of a value of that type. -/
theorem TypeMap.reachable_typed (G : TypeMap.Types Ty Val) {m : TypeMap.Map Ty Val}
    (h : TypeMap.Reachable G m) :
    ∃ mm, m.m = some mm ∧ ∀ T item, (some T, item) ∈ mm → G.HasType T item = true := by
  induction h with
  | new => exact ⟨[], rfl, fun _ _ h => by cases h⟩
  | @insert m m1 T item _ ht hins ih =>
    obtain ⟨mm, hmm, htyped⟩ := ih
    simp only [TypeMap.Insert, hmm, mapAssign] at hins
    cases hins
    refine ⟨_, rfl, ?_⟩
    intro U it hmem
    rcases GoMap.mem_store mm (some T) item _ hmem with h1 | h1
    · cases h1
      exact ht
    · exact htyped U it h1
  | @insertAny m m1 item _ hdyn hins ih =>
    obtain ⟨mm, hmm, htyped⟩ := ih
    simp only [TypeMap.InsertAny, hmm, mapAssign] at hins
    cases hins
    refine ⟨_, rfl, ?_⟩
    intro U it hmem
    rcases GoMap.mem_store mm _ item _ hmem with h1 | h1
    · cases item with
      | none => simp at h1
      | some dv =>
        obtain ⟨D, v⟩ := dv
        simp only [Option.map_some', Prod.mk.injEq, Option.some.injEq] at h1
        obtain ⟨rfl, rfl⟩ := h1
        simp [TypeMap.Types.HasType, hdyn U v rfl]
    · exact htyped U it h1
  | @delete m T _ ih =>
    obtain ⟨mm, hmm, htyped⟩ := ih
    refine ⟨mm.remove (some T), by simp [TypeMap.Delete, hmm, mapDelete], ?_⟩
    intro U it hmem
    exact htyped U it ((GoMap.remove_sublist mm (some T)).subset hmem)
  | @clear m _ ih =>
    obtain ⟨mm, hmm, -⟩ := ih
    exact ⟨[], by simp [TypeMap.Clear, hmm, mapClear], fun _ _ h => by cases h⟩

/-- In a reachable state `Get[T]` and `Lookup[T]` return unless the value
stored under `T` is nil. -/
theorem TypeMap.read_of_not_nil (G : TypeMap.Types Ty Val) {m : TypeMap.Map Ty Val}
    (h : TypeMap.Reachable G m) (T : Ty) (hn : mapFind m.m (some T) ≠ some none) :
    (∃ v, TypeMap.Get G T m = .ok v) ∧ ∃ r, TypeMap.Lookup G T m = .ok r := by
  obtain ⟨mm, hmm, htyped⟩ := TypeMap.reachable_typed G h
  cases hf : mapFind m.m (some T) with
  | none =>
    exact ⟨⟨G.zeroValue T, by simp [TypeMap.Get, hf]⟩,
      ⟨(G.zeroValue T, false), by simp [TypeMap.Lookup, hf]⟩⟩
  | some item =>
    cases item with
    | none => exact absurd hf hn
    | some dv =>
      obtain ⟨D, v⟩ := dv
      have hmem : (some T, some (D, v)) ∈ mm := by
        rw [hmm] at hf
        exact GoMap.lookup_mem mm (some T) _ hf
      have hassert := TypeMap.typeAssert_of_hasType G T D v (htyped T _ hmem)
      exact ⟨⟨some (D, v), by simp [TypeMap.Get, hf, hassert]⟩,
        ⟨(some (D, v), true), by simp [TypeMap.Lookup, hf, hassert]⟩⟩

/-- C17 (the code at the failing input): the state after `New` and
`Insert[error](m, nil)` is reachable, and in it `Get[error]` and
`Lookup[error]` fail in the type assertion. -/
theorem C17_reachable_read_fails_at_nil_error :
    ∃ m, TypeMap.Reachable TypeMap.goTypes m ∧
      TypeMap.Insert .error (TypeMap.New : TypeMap.Map TypeMap.GoType TypeMap.GoValue) none
        = .ok m ∧
      TypeMap.Get TypeMap.goTypes .error m = .error .typeAssertion ∧
      TypeMap.Lookup TypeMap.goTypes .error m = .error .typeAssertion :=
  ⟨{ m := some [(some .error, none)] },
    TypeMap.Reachable.insert .error none TypeMap.Reachable.new (by decide) (by decide),
    by decide, by decide, by decide⟩

end TypeMapReads

end Collections
